import Mathlib

/-!
Shallow embedding of the `internal/search` package of geocine/geopub
(file `search_index.go`: tokenizer, stopword filter, stemmer, trie-based
inverted index, document store, index orchestration and the elasticlunr
wire format), together with proofs settling the frozen claims about it.

Modelling conventions, documented once here:
* Go strings are Lean `String`s; rune iteration (`for _, r := range s`) is
  iteration over `String.data`; `len(s)` (a byte count in Go) is `byteLen
  s.data`, the sum of the UTF-8 sizes of the characters.
* Go maps (`map[K]V`) are association lists with map semantics: `lookupKey`
  finds the unique entry for a key, `insertKey` replaces it in place or
  appends a fresh entry.  Go's randomized iteration order is replaced by
  the list order; no claim below depends on iteration order.
* `float64` values in this package are either integer counts (`df`) or
  `math.Sqrt` of an occurrence count (`tf`), so they are represented
  symbolically by `GoNum` (`int n` / `sqrtNat n`).  On the values the
  program actually produces this representation is injective, and no claim
  compares a `df` number with a `tf` number.
* `strings.ToLower` / `unicode.IsSpace`: `goIsSpace` carries Go's exact
  White_Space table; `goCharLower` is the ASCII fragment of Go's
  lowercasing (all inputs exercised by the claims are ASCII, where the two
  agree).
-/

set_option autoImplicit false
set_option maxRecDepth 100000

namespace GeoPub

/-! ## Generic association-list maps (Go `map[string]V` etc.) -/

/-- Lookup in an association list used with map semantics. -/
def lookupKey {κ β : Type} [DecidableEq κ] (m : List (κ × β)) (k : κ) : Option β :=
  match m with
  | [] => none
  | (k₀, v₀) :: rest => if k₀ = k then some v₀ else lookupKey rest k

/-- Map-style insertion: replace the entry for `k` in place, else append. -/
def insertKey {κ β : Type} [DecidableEq κ] (m : List (κ × β)) (k : κ) (v : β) : List (κ × β) :=
  match m with
  | [] => [(k, v)]
  | (k₀, v₀) :: rest => if k₀ = k then (k, v) :: rest else (k₀, v₀) :: insertKey rest k v

/-- The keys of an association list. -/
def keysOf {κ β : Type} (m : List (κ × β)) : List κ := m.map Prod.fst

/-- An association list is a valid map when its keys are distinct. -/
def NodupKeys {κ β : Type} (m : List (κ × β)) : Prop := (keysOf m).Nodup

/-! ## Characters and byte lengths -/

/-- UTF-8 byte size of one character (what one rune contributes to Go `len`). -/
def charBytes (c : Char) : Nat :=
  if c.toNat < 0x80 then 1
  else if c.toNat < 0x800 then 2
  else if c.toNat < 0x10000 then 3
  else 4

/-- Go `len` of the string with these characters (UTF-8 byte count). -/
def byteLen (w : List Char) : Nat := (w.map charBytes).sum

/-- Go `unicode.IsSpace`: the Unicode White_Space table used by the tokenizer. -/
def goIsSpace (c : Char) : Bool :=
  let n := c.toNat
  decide (9 ≤ n ∧ n ≤ 13) || decide (n = 32) || decide (n = 133) || decide (n = 160) ||
  decide (n = 0x1680) || decide (0x2000 ≤ n ∧ n ≤ 0x200A) || decide (n = 0x2028) ||
  decide (n = 0x2029) || decide (n = 0x202F) || decide (n = 0x205F) || decide (n = 0x3000)

/-- ASCII fragment of Go `unicode.ToLower` (all claim inputs are ASCII). -/
def goCharLower (c : Char) : Char :=
  if 65 ≤ c.toNat ∧ c.toNat ≤ 90 then Char.ofNat (c.toNat + 32) else c

/-- Go `strings.ToLower`, character by character. -/
def lowerChars (w : List Char) : List Char := w.map goCharLower

/-- Go `strings.TrimSpace`: drop White_Space characters from both ends. -/
def trimSpace (w : List Char) : List Char :=
  ((w.dropWhile goIsSpace).reverse.dropWhile goIsSpace).reverse

/-- Separator predicate of the tokenizer: `unicode.IsSpace(r) || r == '-'`. -/
def isSep (c : Char) : Bool := goIsSpace c || decide (c = '-')

/-! ## Tokenizer (`tokenize`) -/

/-- The `maxWordLengthToIndex` constant. -/
def maxWordLengthToIndex : Nat := 80

/-- Flush of the word accumulator: lowercase the trimmed word and emit it
when it is nonempty and its byte length is at most 80. -/
def emitTok (word : List Char) : List String :=
  let token : String := ⟨lowerChars (trimSpace word)⟩
  if token ≠ "" ∧ byteLen token.data ≤ maxWordLengthToIndex then [token] else []

/-- The scanning loop of `tokenize`: `word` is the current accumulator,
the second argument the remaining input runes. -/
def tokLoop : List Char → List Char → List String
  | word, [] => if word ≠ [] then emitTok word else []
  | word, r :: rest =>
    if isSep r then (if word ≠ [] then emitTok word else []) ++ tokLoop [] rest
    else tokLoop (word ++ [r]) rest

/-- Go `tokenize`: split on White_Space and hyphen, lowercase, drop empty
and overlong tokens. -/
def tokenize (text : String) : List String := tokLoop [] text.data

/-! ## Stopword filter (`stopWords`) -/

/-- The stopword table, transcribed verbatim from the source. -/
def stopWordList : List String :=
  ["", "a", "able", "about", "across", "after", "all", "almost", "also", "am",
   "among", "an", "and", "any", "are", "as", "at", "be", "because", "been",
   "but", "by", "can", "cannot", "could", "dear", "did", "do", "does",
   "either", "else", "ever", "every", "for", "from", "get", "got", "had",
   "has", "have", "he", "her", "hers", "him", "his", "how", "however", "i",
   "if", "in", "into", "is", "it", "its", "just", "least", "let", "like",
   "likely", "may", "me", "might", "most", "must", "my", "neither", "no",
   "nor", "not", "of", "off", "often", "on", "only", "or", "other", "our",
   "own", "rather", "said", "say", "says", "she", "should", "since", "so",
   "some", "than", "that", "the", "their", "them", "then", "there", "these",
   "they", "this", "tis", "to", "too", "twas", "us", "wants", "was", "we",
   "were", "what", "when", "where", "which", "while", "who", "whom", "why",
   "will", "with", "would", "yet", "you", "your"]

/-- Go `stopWords[token]`: membership in the stopword table. -/
def stopWords (t : String) : Bool := stopWordList.contains t

/-! ## Stemmer (`stem`) -/

/-- Has the word this ASCII suffix?  (Go `strings.HasSuffix`; for ASCII
suffixes the byte-level comparison coincides with this rune-level one.) -/
def goHasSuffix (w sfx : List Char) : Bool :=
  decide (sfx.length ≤ w.length) && decide (w.drop (w.length - sfx.length) = sfx)

/-- Go `word[:len(word)-len(suffix)]` for a matched ASCII suffix. -/
def dropSuffix (w sfx : List Char) : List Char := w.take (w.length - sfx.length)

/-- Apply the first matching rule of a suffix group; each rule `(sfx, m)` is
guarded by `len(word) > len(sfx) + m` (byte lengths). -/
def applyFirstRule (w : List Char) : List (List Char × Nat) → List Char
  | [] => w
  | (sfx, minLen) :: rest =>
    if goHasSuffix w sfx && decide (byteLen w > sfx.length + minLen) then dropSuffix w sfx
    else applyFirstRule w rest

/-- Group 1: plural / third-person suffixes with their `minLen` guards. -/
def step1Rules : List (List Char × Nat) :=
  [("ies".data, 3), ("es".data, 2), ("s".data, 1)]

/-- Group 2: `-ed` (kept when `len > 4`) else `-ing` (kept when `len > 5`). -/
def stemStep2 (w : List Char) : List Char :=
  if goHasSuffix w "ed".data && decide (byteLen w > 4) then dropSuffix w "ed".data
  else if goHasSuffix w "ing".data && decide (byteLen w > 5) then dropSuffix w "ing".data
  else w

/-- Group 3: derivational suffixes, each guarded by `len(word) > len(sfx)+2`. -/
def step3Rules : List (List Char × Nat) :=
  [("tion".data, 2), ("sion".data, 2), ("ment".data, 2), ("ness".data, 2),
   ("ful".data, 2), ("less".data, 2), ("ity".data, 2), ("ous".data, 2),
   ("ive".data, 2), ("ent".data, 2), ("ant".data, 2), ("able".data, 2),
   ("ible".data, 2), ("ence".data, 2), ("ance".data, 2)]

/-- Group 4: agentive/comparative suffixes, same `+2` guard. -/
def step4Rules : List (List Char × Nat) :=
  [("ly".data, 2), ("er".data, 2), ("est".data, 2)]

/-- Go `stem`: identity on words of byte length at most 2, else lowercase and
run the four suffix groups in order, at most one rule per group. -/
def stem (word : String) : String :=
  if byteLen word.data ≤ 2 then word
  else
    let w0 := lowerChars word.data
    let w1 := applyFirstRule w0 step1Rules
    let w2 := stemStep2 w1
    let w3 := applyFirstRule w2 step3Rules
    ⟨applyFirstRule w3 step4Rules⟩

/-! ## Numbers (`float64` / `int64` values of the wire format) -/

/-- Symbolic representation of the `float64` values this package produces:
integers (document frequencies) and `math.Sqrt` of an occurrence count
(term weights). -/
inductive GoNum : Type where
  | int (n : Int)
  | sqrtNat (n : Nat)
deriving DecidableEq

/-- Go `int64(x)` on such a number (truncation of the square root). -/
def GoNum.toInt64 : GoNum → Int
  | .int n => n
  | .sqrtNat n => (Nat.sqrt n : Int)

/-! ## Trie nodes (`IndexItem`) -/

mutual
/-- A node of the trie-like inverted index: `Docs` (reference → term
weight), the document frequency `DF` (`int64`), and the child map keyed by
strings (`string(ch)` for tries built by `AddToken`). -/
inductive IndexItem : Type where
  | node (docs : List (String × GoNum)) (df : Int) (children : ChildMap)

/-- The `Children map[string]*IndexItem` field, as an association list. -/
inductive ChildMap : Type where
  | nil
  | cons (key : String) (item : IndexItem) (rest : ChildMap)
end

/-- The `Docs` field. -/
def IndexItem.docs : IndexItem → List (String × GoNum)
  | .node d _ _ => d

/-- The `DF` field. -/
def IndexItem.df : IndexItem → Int
  | .node _ f _ => f

/-- The `Children` field. -/
def IndexItem.children : IndexItem → ChildMap
  | .node _ _ c => c

/-- Lookup in a child map. -/
def ChildMap.find : ChildMap → String → Option IndexItem
  | .nil, _ => none
  | .cons k t rest, key => if k = key then some t else ChildMap.find rest key

/-- Map-style insertion into a child map. -/
def ChildMap.set : ChildMap → String → IndexItem → ChildMap
  | .nil, key, x => .cons key x .nil
  | .cons k t rest, key, x =>
    if k = key then .cons key x rest else .cons k t (ChildMap.set rest key x)

/-- The keys of a child map, in order. -/
def ChildMap.keys : ChildMap → List String
  | .nil => []
  | .cons k _ rest => k :: ChildMap.keys rest

/-- Concatenation of child maps (used to state fold lemmas). -/
def ChildMap.append : ChildMap → ChildMap → ChildMap
  | .nil, m => m
  | .cons k t rest, m => .cons k t (ChildMap.append rest m)

/-- A fresh trie node (`&IndexItem{Docs: make(...), Children: make(...)}`). -/
def emptyItem : IndexItem := .node [] 0 .nil

/-! ## Inverted index (`InvertedIndex`) -/

/-- Walk/create one child edge per rune of the remaining token and update
the terminal node: the loop body plus terminal update of `AddToken`. -/
def addTokenAt : IndexItem → List Char → String → GoNum → IndexItem
  | .node docs df ch, [], ref, w =>
    .node (insertKey docs ref w)
      (if (lookupKey docs ref).isNone then df + 1 else df) ch
  | .node docs df ch, c :: cs, ref, w =>
    let child := ((ch.find (String.singleton c)).getD emptyItem)
    .node docs df (ch.set (String.singleton c) (addTokenAt child cs ref w))

/-- Deterministic descent of `GetNode`: `nil` (here `none`) if an edge is
missing. -/
def getNodeAt : IndexItem → List Char → Option IndexItem
  | t, [] => some t
  | .node _ _ ch, c :: cs =>
    match ch.find (String.singleton c) with
    | some child => getNodeAt child cs
    | none => none

/-- An inverted index for one field: a root trie node. -/
structure InvertedIndex : Type where
  Root : IndexItem

/-- Go `NewInvertedIndex`. -/
def NewInvertedIndex : InvertedIndex := ⟨emptyItem⟩

/-- Go `(*InvertedIndex).AddToken`: no-op on the empty token, else insert
along the token's runes; at the terminal node `DF` is incremented exactly
when `docRef` is new, then the weight is stored unconditionally. -/
def InvertedIndex.AddToken (ii : InvertedIndex) (docRef token : String) (termFreq : GoNum) :
    InvertedIndex :=
  if byteLen token.data = 0 then ii
  else ⟨addTokenAt ii.Root token.data docRef termFreq⟩

/-- Go `(*InvertedIndex).GetNode`. -/
def InvertedIndex.GetNode (ii : InvertedIndex) (token : String) : Option IndexItem :=
  getNodeAt ii.Root token.data

/-- Go `(*InvertedIndex).HasToken`. -/
def InvertedIndex.HasToken (ii : InvertedIndex) (token : String) : Bool :=
  (ii.GetNode token).isSome

/-- Go `(*InvertedIndex).GetDocs`: `nil` for a missing node, else the `Docs`
map (the `TermFrequency` wrapper is projected away, as in the source). -/
def InvertedIndex.GetDocs (ii : InvertedIndex) (token : String) :
    Option (List (String × GoNum)) :=
  match ii.GetNode token with
  | none => none
  | some n => some n.docs

/-- Go `(*InvertedIndex).GetDocFrequency`: `0` for a missing node. -/
def InvertedIndex.GetDocFrequency (ii : InvertedIndex) (token : String) : Int :=
  match ii.GetNode token with
  | none => 0
  | some n => n.df

/-- One `AddToken` call: reference, token and weight. -/
structure TokenCall : Type where
  ref : String
  token : String
  weight : GoNum

/-- The inverted index reached from `ii` by a sequence of `AddToken` calls. -/
def applyCallsFrom (ii : InvertedIndex) (calls : List TokenCall) : InvertedIndex :=
  calls.foldl (fun jj c => jj.AddToken c.ref c.token c.weight) ii

/-- The inverted index built from a fresh `NewInvertedIndex` by a sequence
of `AddToken` calls. -/
def applyCalls (calls : List TokenCall) : InvertedIndex :=
  applyCallsFrom NewInvertedIndex calls

/-! ## Document store (`DocumentStore`) -/

/-- Dynamic (`interface{}`) values appearing as document field values. -/
inductive FieldVal : Type where
  | str (s : String)
  | int (n : Int)
  | bool (b : Bool)
deriving DecidableEq

/-- Go `fmt.Sprintf("%v", v)` on such a value. -/
def FieldVal.toGoString : FieldVal → String
  | .str s => s
  | .int n => toString n
  | .bool b => if b then "true" else "false"

/-- A document: a field-name → value map. -/
def Document : Type := List (String × FieldVal)

/-- Go `DocumentStore`. -/
structure DocumentStore : Type where
  Save : Bool
  Docs : List (String × Document)
  DocInfo : List (String × List (String × Nat))
  DSLength : Nat

/-- Go `NewDocumentStore`. -/
def NewDocumentStore (save : Bool) : DocumentStore := ⟨save, [], [], 0⟩

/-- Go `(*DocumentStore).AddDoc`: bump `Length` exactly when the reference
is new, then store the document (or an empty placeholder) under it. -/
def DocumentStore.AddDoc (ds : DocumentStore) (docRef : String) (doc : Document) :
    DocumentStore :=
  let len1 := if (lookupKey ds.Docs docRef).isNone then ds.DSLength + 1 else ds.DSLength
  { ds with
    DSLength := len1
    Docs := insertKey ds.Docs docRef (if ds.Save then doc else []) }

/-- Go `(*DocumentStore).GetDoc` (the `bool` result is `Option`-ness). -/
def DocumentStore.GetDoc (ds : DocumentStore) (docRef : String) : Option Document :=
  lookupKey ds.Docs docRef

/-- Go `(*DocumentStore).HasDoc`. -/
def DocumentStore.HasDoc (ds : DocumentStore) (docRef : String) : Bool :=
  (lookupKey ds.Docs docRef).isSome

/-- Go `(*DocumentStore).AddFieldLength`. -/
def DocumentStore.AddFieldLength (ds : DocumentStore) (docRef field : String) (len : Nat) :
    DocumentStore :=
  let fi := (lookupKey ds.DocInfo docRef).getD []
  { ds with DocInfo := insertKey ds.DocInfo docRef (insertKey fi field len) }

/-- Go `(*DocumentStore).GetFieldLength`: `0` when reference or field is
missing. -/
def DocumentStore.GetFieldLength (ds : DocumentStore) (docRef field : String) : Nat :=
  match lookupKey ds.DocInfo docRef with
  | some fi => (lookupKey fi field).getD 0
  | none => 0

/-! ## Index orchestrator (`Index`) -/

/-- The `ElasticlunrVersion` constant. -/
def ElasticlunrVersion : String := "0.9.5"

/-- Go `Index`: frozen field list, one inverted index per field, reference
field name, fixed metadata, and the shared document store. -/
structure Index : Type where
  Fields : List String
  FieldIndexes : List (String × InvertedIndex)
  Ref : String
  Version : String
  Pipeline : List String
  Lang : String
  documentStore : DocumentStore

/-- Go `NewIndex`. -/
def NewIndex (fields : List String) : Index :=
  { Fields := fields
    FieldIndexes := fields.foldl (fun m f => insertKey m f NewInvertedIndex) []
    Ref := "id"
    Version := ElasticlunrVersion
    Pipeline := ["trimmer", "stopWordFilter", "stemmer"]
    Lang := "English"
    documentStore := NewDocumentStore true }

/-- The pipeline applied to one field's stringified value inside
`Index.AddDoc`: tokenize, drop stopwords (matched against the unstemmed
token), stem, and drop empty stems. -/
def processField (s : String) : List String :=
  (tokenize s).filterMap fun token =>
    if stopWords token then none
    else
      let stemmed := stem token
      if stemmed ≠ "" then some stemmed else none

/-- The `tokenFreq[field][token]++` loop over the processed tokens. -/
def bumpCounts (m : List (String × Nat)) (toks : List String) : List (String × Nat) :=
  toks.foldl (fun acc t => insertKey acc t ((lookupKey acc t).getD 0 + 1)) m

/-- The `AddToken` loop over one field's `tokenFreq` entries, with weight
`math.Sqrt(float64(count))`. -/
def addTokensFromCounts (ii : InvertedIndex) (ref : String) (counts : List (String × Nat)) :
    InvertedIndex :=
  counts.foldl (fun jj tc => jj.AddToken ref tc.1 (GoNum.sqrtNat tc.2)) ii

/-- The mutable state threaded through the per-field loop of `Index.AddDoc`. -/
structure AddDocState : Type where
  fieldIndexes : List (String × InvertedIndex)
  store : DocumentStore
  tokenFreq : List (String × List (String × Nat))

/-- One iteration of the per-field loop of `Index.AddDoc`: skip the
reference field and absent fields; otherwise stringify, run the pipeline,
record the distinct-token count, bump the frequency table, and post every
`(token, count)` entry of the field's table to the field's inverted index.

Looking up a field absent from `FieldIndexes` would dereference a nil
pointer in Go; the total model substitutes a fresh index there, and the
theorems about `AddDoc` assume the field is present (true for every index
built by `NewIndex`). -/
def addDocField (refName docRef : String) (doc : Document) (st : AddDocState)
    (field : String) : AddDocState :=
  if field = refName then st
  else
    match lookupKey doc field with
    | none => st
    | some v =>
      let processed := processField v.toGoString
      let store1 := st.store.AddFieldLength docRef field processed.dedup.length
      let tf1 := bumpCounts ((lookupKey st.tokenFreq field).getD []) processed
      let ii0 := (lookupKey st.fieldIndexes field).getD NewInvertedIndex
      ⟨insertKey st.fieldIndexes field (addTokensFromCounts ii0 docRef tf1),
       store1, insertKey st.tokenFreq field tf1⟩

/-- The reference string of a document: `fmt.Sprintf("%v", doc[idx.Ref])`
(`"<nil>"` when the reference field is absent, as `%v` prints `nil`). -/
def refStringOf (refName : String) (doc : Document) : String :=
  match lookupKey doc refName with
  | some v => v.toGoString
  | none => "<nil>"

/-- Go `(*Index).AddDoc`. -/
def Index.AddDoc (idx : Index) (doc : Document) : Index :=
  let docRef := refStringOf idx.Ref doc
  let docCopy : Document :=
    doc.foldl (fun m kv => insertKey m kv.1 (if kv.1 = idx.Ref then .str docRef else kv.2)) []
  let ds0 := idx.documentStore.AddDoc docRef docCopy
  let fin := idx.Fields.foldl (addDocField idx.Ref docRef doc) ⟨idx.FieldIndexes, ds0, []⟩
  { idx with FieldIndexes := fin.fieldIndexes, documentStore := fin.store }

/-! ## Serialization to a nested map (`ToMap`) -/

/-- Dynamic (`interface{}`) values appearing in the `ToMap` result. -/
inductive ToMapVal : Type where
  | str (s : String)
  | strList (l : List String)
  | store (ds : DocumentStore)
  | obj (m : List (String × ToMapVal))
  | item (t : IndexItem)

/-- Go `(*Index).ToMap`: the nested map handed to the JSON encoder, with
each field's root trie node wrapped under a `"root"` key. -/
def Index.ToMap (idx : Index) : List (String × ToMapVal) :=
  let nestedIndex : List (String × ToMapVal) :=
    idx.FieldIndexes.map fun fi => (fi.1, .obj [("root", .item fi.2.Root)])
  [("documentStore", .store idx.documentStore),
   ("index", .obj nestedIndex),
   ("lang", .str idx.Lang),
   ("pipeline", .strList idx.Pipeline),
   ("ref", .str idx.Ref),
   ("version", .str idx.Version),
   ("fields", .strList idx.Fields)]

/-! ## The trie wire format (`MarshalJSON` / `UnmarshalJSON`) -/

mutual
/-- The fragment of JSON the trie wire format uses: numbers and objects. -/
inductive JSON : Type where
  | num (x : GoNum)
  | obj (fields : JFields)

/-- The ordered key/value entries of a JSON object. -/
inductive JFields : Type where
  | nil
  | cons (key : String) (val : JSON) (rest : JFields)
end

/-- Lookup of a key in a JSON object's entries. -/
def jLookup : JFields → String → Option JSON
  | .nil, _ => none
  | .cons k v rest, key => if k = key then some v else jLookup rest key

/-- The `docs` map as JSON: each reference maps to `{"tf": <weight>}`. -/
def docsFields : List (String × GoNum) → JFields
  | [] => .nil
  | (r, w) :: rest => .cons r (.obj (.cons "tf" (.num w) .nil)) (docsFields rest)

/-- The optional `"docs"` entry of a marshaled node (emitted only when the
`Docs` map is nonempty). -/
def docsPart (docs : List (String × GoNum)) (rest : JFields) : JFields :=
  if docs.length > 0 then .cons "docs" (.obj (docsFields docs)) rest else rest

/-- The optional `"df"` entry of a marshaled node (emitted only when
positive). -/
def dfPart (df : Int) (rest : JFields) : JFields :=
  if df > 0 then .cons "df" (.num (.int df)) rest else rest

mutual
/-- Go `(*IndexItem).MarshalJSON`: `docs` (if nonempty) and `df` (if
positive) directly alongside one entry per child, keyed by the child's
edge label, with no wrapping `"children"` key. -/
def marshalItem : IndexItem → JSON
  | .node docs df ch => .obj (docsPart docs (dfPart df (marshalChildren ch)))

/-- The children entries of a marshaled node. -/
def marshalChildren : ChildMap → JFields
  | .nil => .nil
  | .cons k t rest => .cons k (marshalItem t) (marshalChildren rest)
end

/-- Parsing of one `{"tf": <number>}` entry; anything else is skipped. -/
def parseTF : JSON → Option GoNum
  | .obj fs =>
    match jLookup fs "tf" with
    | some (.num x) => some x
    | _ => none
  | _ => none

/-- Entry-wise worker for the `"docs"` branch of `UnmarshalJSON`. -/
def parseDocsFields (acc : List (String × GoNum)) : JFields → List (String × GoNum)
  | .nil => acc
  | .cons docID v rest =>
    match parseTF v with
    | some x => parseDocsFields (insertKey acc docID x) rest
    | none => parseDocsFields acc rest

/-- The `"docs"` branch of `UnmarshalJSON`: merge every well-formed
`reference → {"tf": w}` entry into the accumulated `Docs` map; a
non-object value or entry is silently ignored. -/
def parseDocsInto (acc : List (String × GoNum)) : JSON → List (String × GoNum)
  | .obj fs => parseDocsFields acc fs
  | _ => acc

mutual
/-- Go `(*IndexItem).UnmarshalJSON` on a fresh receiver: fails (returns an
error) unless the value is an object, then folds over its entries. -/
def unmarshalItem : JSON → Option IndexItem
  | .num _ => none
  | .obj fs => some (unmarshalFields fs emptyItem)

/-- The entry loop of `UnmarshalJSON`: `"docs"` and `"df"` update the node
itself; every other key is a child edge label whose value is unmarshaled
recursively, a failing child being silently skipped. -/
def unmarshalFields : JFields → IndexItem → IndexItem
  | .nil, acc => acc
  | .cons key v rest, .node docs df ch =>
    if key = "docs" then unmarshalFields rest (.node (parseDocsInto docs v) df ch)
    else if key = "df" then
      match v with
      | .num x => unmarshalFields rest (.node docs x.toInt64 ch)
      | _ => unmarshalFields rest (.node docs df ch)
    else
      match unmarshalItem v with
      | some child => unmarshalFields rest (.node docs df (ch.set key child))
      | none => unmarshalFields rest (.node docs df ch)
end

/-! ## Observation helpers used by the claim statements -/

/-- Is `p` a (possibly full) prefix of `t`? -/
def prePath : List Char → List Char → Bool
  | [], _ => true
  | _, [] => false
  | a :: p, b :: t => decide (a = b) && prePath p t

/-- The `Docs` map of the node reached along `p`, `[]` when absent. -/
def optDocs (t : IndexItem) (p : List Char) : List (String × GoNum) :=
  match getNodeAt t p with
  | some n => n.docs
  | none => []

/-- The `DF` of the node reached along `p`, `0` when absent. -/
def optDf (t : IndexItem) (p : List Char) : Int :=
  match getNodeAt t p with
  | some n => n.df
  | none => 0

/-- The inverted index of a field (`idx.FieldIndexes[f]`; the theorems only
use it where the field is present). -/
def fieldIndexOf (idx : Index) (f : String) : InvertedIndex :=
  (lookupKey idx.FieldIndexes f).getD NewInvertedIndex

/-- Does this `ToMap` value carry an object with a `"root"` key? -/
def hasRootKey (v : Option ToMapVal) : Bool :=
  match v with
  | some (.obj m) => (lookupKey m "root").isSome
  | _ => false

/-- The entries of the `"index"` value of a `ToMap` result. -/
def indexEntryOf (m : List (String × ToMapVal)) : List (String × ToMapVal) :=
  match lookupKey m "index" with
  | some (.obj im) => im
  | _ => []

/-- The references a call sequence posts for a given token. -/
def refsFor (calls : List TokenCall) (token : String) : List String :=
  (calls.filter fun c => c.token = token).map TokenCall.ref

/-- Application of a sequence of `DocumentStore.AddDoc` calls. -/
def applyDocCallsFrom (ds : DocumentStore) (calls : List (String × Document)) :
    DocumentStore :=
  calls.foldl (fun s c => s.AddDoc c.1 c.2) ds

/-! ## Reachability invariant of tries built by `AddToken` -/

/-- Well-formedness of every trie reachable by `AddToken` calls: the `Docs`
map has distinct keys and `DF` equals its size, child keys are distinct
single-character strings, and all children are well formed. -/
inductive WFItem : IndexItem → Prop where
  | node (docs : List (String × GoNum)) (df : Int) (ch : ChildMap) :
      NodupKeys docs → df = (docs.length : Int) →
      (∀ k, k ∈ ch.keys → k.data.length = 1) → ch.keys.Nodup →
      (∀ k t, ch.find k = some t → WFItem t) → WFItem (.node docs df ch)

/-! ## Concrete scenarios named by the claims -/

/-- The Scenario 3 document `{id:1, title:"Quick Brown Foxes",
body:"Running jumped runner's"}`. -/
def scenario3Doc : Document :=
  [("id", .int 1), ("title", .str "Quick Brown Foxes"),
   ("body", .str "Running jumped runner\x27s")]

/-- The Scenario 3 index: fields `["id","title","body"]` with the document
above added. -/
def scenario3Index : Index := (NewIndex ["id", "title", "body"]).AddDoc scenario3Doc

/-- A token of 81 `a` characters. -/
def longToken81 : String := ⟨List.replicate 81 'a'⟩

/-- A token of 80 `a` characters. -/
def longToken80 : String := ⟨List.replicate 80 'a'⟩

/-- The Scenario 4 index: a body consisting of a single 81-character token. -/
def scenario4Index : Index :=
  (NewIndex ["id", "body"]).AddDoc [("id", .int 1), ("body", .str longToken81)]

/-- The boundary companion of Scenario 4: a single 80-character token. -/
def scenario4bIndex : Index :=
  (NewIndex ["id", "body"]).AddDoc [("id", .int 1), ("body", .str longToken80)]

/-- An index whose body is the single token `mostly`, which stems to the
stopword `most`. -/
def stopStemIndex : Index :=
  (NewIndex ["id", "body"]).AddDoc [("id", .int 1), ("body", .str "mostly")]

/-! # Theorems

First the generic lemma library about the association-list maps, then the
per-path characterization of `AddToken`, the reachability invariant, the
wire-format round trip, and finally one theorem per claim. -/

theorem lookup_insert {κ β : Type} [DecidableEq κ] (m : List (κ × β)) (k k' : κ) (v : β) :
    lookupKey (insertKey m k v) k' = if k = k' then some v else lookupKey m k' := by
  induction m with
  | nil => by_cases h : k = k' <;> simp [insertKey, lookupKey, h]
  | cons kv rest ih =>
    obtain ⟨k₀, v₀⟩ := kv
    by_cases h₀ : k₀ = k
    · subst h₀
      by_cases h : k₀ = k' <;> simp [insertKey, lookupKey, h]
    · by_cases h : k₀ = k'
      · subst h
        have hk : ¬ k = k₀ := fun hk => h₀ hk.symm
        simp [insertKey, lookupKey, h₀, hk]
      · simp [insertKey, lookupKey, h₀, h, ih]

theorem lookup_insert_self {κ β : Type} [DecidableEq κ] (m : List (κ × β)) (k : κ) (v : β) :
    lookupKey (insertKey m k v) k = some v := by
  simp [lookup_insert]

theorem lookup_insert_ne {κ β : Type} [DecidableEq κ] (m : List (κ × β)) (k k' : κ) (v : β)
    (h : k ≠ k') : lookupKey (insertKey m k v) k' = lookupKey m k' := by
  simp [lookup_insert, h]

theorem keysOf_nil {κ β : Type} : keysOf ([] : List (κ × β)) = [] := rfl

theorem keysOf_cons {κ β : Type} (k₀ : κ) (v₀ : β) (rest : List (κ × β)) :
    keysOf ((k₀, v₀) :: rest) = k₀ :: keysOf rest := rfl

theorem keysOf_append {κ β : Type} (m₁ m₂ : List (κ × β)) :
    keysOf (m₁ ++ m₂) = keysOf m₁ ++ keysOf m₂ := by
  simp [keysOf]

theorem lookup_isSome_iff_mem {κ β : Type} [DecidableEq κ] (m : List (κ × β)) (k : κ) :
    (lookupKey m k).isSome ↔ k ∈ keysOf m := by
  induction m with
  | nil => simp [lookupKey, keysOf_nil]
  | cons kv rest ih =>
    obtain ⟨k₀, v₀⟩ := kv
    rw [keysOf_cons]
    by_cases h : k₀ = k
    · subst h; simp [lookupKey]
    · have h' : ¬ k = k₀ := fun hk => h hk.symm
      simp [lookupKey, h, h']
      exact ih

theorem lookup_eq_none_iff_not_mem {κ β : Type} [DecidableEq κ] (m : List (κ × β)) (k : κ) :
    lookupKey m k = none ↔ k ∉ keysOf m := by
  rw [← lookup_isSome_iff_mem]
  cases lookupKey m k <;> simp

theorem keys_insert_of_mem {κ β : Type} [DecidableEq κ] (m : List (κ × β)) (k : κ) (v : β)
    (h : k ∈ keysOf m) : keysOf (insertKey m k v) = keysOf m := by
  induction m with
  | nil => simp [keysOf_nil] at h
  | cons kv rest ih =>
    obtain ⟨k₀, v₀⟩ := kv
    by_cases h₀ : k₀ = k
    · subst h₀; simp [insertKey, keysOf_cons]
    · rw [keysOf_cons] at h
      have hmem : k ∈ keysOf rest := by
        cases List.mem_cons.mp h with
        | inl hk => exact absurd hk.symm h₀
        | inr hk => exact hk
      have hins : insertKey ((k₀, v₀) :: rest) k v = (k₀, v₀) :: insertKey rest k v := by
        simp [insertKey, h₀]
      rw [hins, keysOf_cons, keysOf_cons, ih hmem]

theorem keys_insert_of_not_mem {κ β : Type} [DecidableEq κ] (m : List (κ × β)) (k : κ) (v : β)
    (h : k ∉ keysOf m) : keysOf (insertKey m k v) = keysOf m ++ [k] := by
  induction m with
  | nil => simp [insertKey, keysOf_cons, keysOf_nil]
  | cons kv rest ih =>
    obtain ⟨k₀, v₀⟩ := kv
    rw [keysOf_cons] at h
    have h₀ : ¬ k₀ = k := fun hk => h (hk ▸ List.mem_cons_self k₀ _)
    have hrest : k ∉ keysOf rest := fun hk => h (List.mem_cons_of_mem _ hk)
    rw [show insertKey ((k₀, v₀) :: rest) k v = (k₀, v₀) :: insertKey rest k v by
          simp [insertKey, h₀]]
    rw [keysOf_cons, keysOf_cons, ih hrest]
    rfl

theorem length_insert {κ β : Type} [DecidableEq κ] (m : List (κ × β)) (k : κ) (v : β) :
    (insertKey m k v).length =
      if (lookupKey m k).isNone then m.length + 1 else m.length := by
  induction m with
  | nil => simp [insertKey, lookupKey]
  | cons kv rest ih =>
    obtain ⟨k₀, v₀⟩ := kv
    by_cases h₀ : k₀ = k
    · subst h₀; simp [insertKey, lookupKey]
    · rw [show insertKey ((k₀, v₀) :: rest) k v = (k₀, v₀) :: insertKey rest k v by
            simp [insertKey, h₀],
         show lookupKey ((k₀, v₀) :: rest) k = lookupKey rest k by simp [lookupKey, h₀]]
      simp only [List.length_cons, ih]
      by_cases h : (lookupKey rest k).isNone <;> simp [h]

theorem nodup_insert {κ β : Type} [DecidableEq κ] (m : List (κ × β)) (k : κ) (v : β)
    (h : NodupKeys m) : NodupKeys (insertKey m k v) := by
  by_cases hk : k ∈ keysOf m
  · unfold NodupKeys
    rw [keys_insert_of_mem m k v hk]
    exact h
  · unfold NodupKeys
    rw [keys_insert_of_not_mem m k v hk]
    rw [List.nodup_append]
    refine ⟨h, List.nodup_singleton k, ?_⟩
    intro a ha hsing
    rw [List.mem_singleton] at hsing
    subst hsing
    exact hk ha

theorem insert_of_not_mem {κ β : Type} [DecidableEq κ] (m : List (κ × β)) (k : κ) (v : β)
    (h : k ∉ keysOf m) : insertKey m k v = m ++ [(k, v)] := by
  induction m with
  | nil => simp [insertKey]
  | cons kv rest ih =>
    obtain ⟨k₀, v₀⟩ := kv
    rw [keysOf_cons] at h
    have h₀ : ¬ k₀ = k := fun hk => h (hk ▸ List.mem_cons_self k₀ _)
    have hrest : k ∉ keysOf rest := fun hk => h (List.mem_cons_of_mem _ hk)
    simp [insertKey, h₀, ih hrest]

theorem foldInsert_of_disjoint {κ β : Type} [DecidableEq κ] (l : List (κ × β)) :
    ∀ acc : List (κ × β), NodupKeys l → (∀ k, k ∈ keysOf l → k ∉ keysOf acc) →
      l.foldl (fun a p => insertKey a p.1 p.2) acc = acc ++ l := by
  induction l with
  | nil => intro acc _ _; simp
  | cons kv rest ih =>
    intro acc hnd hdisj
    obtain ⟨k, v⟩ := kv
    have hk : k ∉ keysOf acc := hdisj k (by rw [keysOf_cons]; exact List.mem_cons_self _ _)
    have hnd' : NodupKeys rest := by
      unfold NodupKeys at hnd ⊢
      rw [keysOf_cons] at hnd
      exact (List.nodup_cons.mp hnd).2
    have hkr : k ∉ keysOf rest := by
      unfold NodupKeys at hnd
      rw [keysOf_cons] at hnd
      exact (List.nodup_cons.mp hnd).1
    have hdisj' : ∀ k', k' ∈ keysOf rest → k' ∉ keysOf (acc ++ [(k, v)]) := by
      intro k' hmem
      rw [keysOf_append]
      rw [List.mem_append]
      rintro (hacc | hsing)
      · exact hdisj k' (by rw [keysOf_cons]; exact List.mem_cons_of_mem _ hmem) hacc
      · rw [keysOf_cons, keysOf_nil] at hsing
        simp at hsing
        exact hkr (hsing ▸ hmem)
    show rest.foldl (fun a p => insertKey a p.1 p.2) (insertKey acc k v) = _
    rw [insert_of_not_mem acc k v hk, ih (acc ++ [(k, v)]) hnd' hdisj']
    simp

/-! ### Child maps and single-character keys -/

theorem singleton_inj {c c' : Char} : String.singleton c = String.singleton c' ↔ c = c' := by
  constructor
  · intro h
    have : ([c] : List Char) = [c'] := congrArg String.data h
    simpa using this
  · intro h; rw [h]

theorem cfind_set : (ch : ChildMap) → ∀ (k k' : String) (x : IndexItem),
    (ch.set k x).find k' = if k = k' then some x else ch.find k'
  | .nil => by
    intro k k' x
    by_cases h : k = k' <;> simp [ChildMap.set, ChildMap.find, h]
  | .cons k₀ t₀ rest => by
    intro k k' x
    by_cases h₀ : k₀ = k
    · subst h₀
      by_cases h : k₀ = k' <;> simp [ChildMap.set, ChildMap.find, h]
    · by_cases h : k₀ = k'
      · subst h
        have hk : ¬ k = k₀ := fun hk => h₀ hk.symm
        simp [ChildMap.set, ChildMap.find, h₀, hk]
      · simp [ChildMap.set, ChildMap.find, h₀, h, cfind_set rest k k' x]

theorem cfind_isSome_iff_mem : (ch : ChildMap) → ∀ k : String,
    ((ch.find k).isSome ↔ k ∈ ch.keys)
  | .nil => by intro k; simp [ChildMap.find, ChildMap.keys]
  | .cons k₀ t₀ rest => by
    intro k
    by_cases h : k₀ = k
    · subst h; simp [ChildMap.find, ChildMap.keys]
    · have h' : ¬ k = k₀ := fun hk => h hk.symm
      simp [ChildMap.find, ChildMap.keys, h, h']
      exact cfind_isSome_iff_mem rest k

theorem ckeys_set_of_mem : (ch : ChildMap) → ∀ (k : String) (x : IndexItem),
    k ∈ ch.keys → (ch.set k x).keys = ch.keys
  | .nil => by intro k x h; simp [ChildMap.keys] at h
  | .cons k₀ t₀ rest => by
    intro k x h
    by_cases h₀ : k₀ = k
    · subst h₀; simp [ChildMap.set, ChildMap.keys]
    · rw [ChildMap.keys] at h
      have hmem : k ∈ rest.keys := by
        cases List.mem_cons.mp h with
        | inl hk => exact absurd hk.symm h₀
        | inr hk => exact hk
      simp [ChildMap.set, ChildMap.keys, h₀, ckeys_set_of_mem rest k x hmem]

theorem ckeys_set_of_not_mem : (ch : ChildMap) → ∀ (k : String) (x : IndexItem),
    k ∉ ch.keys → (ch.set k x).keys = ch.keys ++ [k]
  | .nil => by intro k x _; simp [ChildMap.set, ChildMap.keys]
  | .cons k₀ t₀ rest => by
    intro k x h
    rw [ChildMap.keys] at h
    have h₀ : ¬ k₀ = k := fun hk => h (hk ▸ List.mem_cons_self k₀ _)
    have hrest : k ∉ rest.keys := fun hk => h (List.mem_cons_of_mem _ hk)
    simp [ChildMap.set, ChildMap.keys, h₀, ckeys_set_of_not_mem rest k x hrest]

theorem cset_of_not_mem : (ch : ChildMap) → ∀ (k : String) (x : IndexItem),
    k ∉ ch.keys → ch.set k x = ch.append (.cons k x .nil)
  | .nil => by intro k x _; simp [ChildMap.set, ChildMap.append]
  | .cons k₀ t₀ rest => by
    intro k x h
    rw [ChildMap.keys] at h
    have h₀ : ¬ k₀ = k := fun hk => h (hk ▸ List.mem_cons_self k₀ _)
    have hrest : k ∉ rest.keys := fun hk => h (List.mem_cons_of_mem _ hk)
    simp [ChildMap.set, ChildMap.append, h₀, cset_of_not_mem rest k x hrest]

theorem cappend_assoc : (a : ChildMap) → ∀ b c : ChildMap,
    (a.append b).append c = a.append (b.append c)
  | .nil => by intro b c; simp [ChildMap.append]
  | .cons k t rest => by intro b c; simp [ChildMap.append, cappend_assoc rest b c]

theorem cappend_nil : (a : ChildMap) → a.append .nil = a
  | .nil => rfl
  | .cons k t rest => by simp [ChildMap.append, cappend_nil rest]

/-! ### Prefix paths -/

theorem prePath_nil_left (t : List Char) : prePath [] t = true := by
  cases t <;> rfl

theorem prePath_nil_right (p : List Char) : prePath p [] = true ↔ p = [] := by
  cases p <;> simp [prePath]

theorem prePath_cons (a b : Char) (p t : List Char) :
    prePath (a :: p) (b :: t) = (decide (a = b) && prePath p t) := rfl

theorem prePath_refl (p : List Char) : prePath p p = true := by
  induction p with
  | nil => rfl
  | cons a p ih => simp [prePath_cons, ih]

/-! ### Per-path characterization of `addTokenAt` -/

theorem getNodeAt_emptyItem (c : Char) (cs : List Char) :
    getNodeAt emptyItem (c :: cs) = none := by
  simp [getNodeAt, emptyItem, ChildMap.find]

theorem optDocs_emptyItem (p : List Char) : optDocs emptyItem p = [] := by
  cases p with
  | nil => rfl
  | cons c cs => simp [optDocs, getNodeAt_emptyItem]

theorem optDf_emptyItem (p : List Char) : optDf emptyItem p = 0 := by
  cases p with
  | nil => rfl
  | cons c cs => simp [optDf, getNodeAt_emptyItem]

theorem addToken_empty_off (cs : List Char) :
    ∀ p r w, prePath p cs = false →
      getNodeAt (addTokenAt emptyItem cs r w) p = none := by
  induction cs with
  | nil =>
    intro p r w hp
    cases p with
    | nil => simp [prePath] at hp
    | cons a p' => simp [addTokenAt, emptyItem, getNodeAt, ChildMap.find]
  | cons c cs' ih =>
    intro p r w hp
    cases p with
    | nil => rw [prePath_nil_left] at hp; exact absurd hp (by simp)
    | cons a p' =>
      rw [show addTokenAt emptyItem (c :: cs') r w =
            .node [] 0 (ChildMap.nil.set (String.singleton c)
              (addTokenAt emptyItem cs' r w)) from rfl]
      by_cases hac : a = c
      · subst hac
        rw [prePath_cons] at hp
        simp at hp
        simp [getNodeAt, ChildMap.set, ChildMap.find]
        exact ih p' r w hp
      · have hsing : ¬ String.singleton c = String.singleton a := fun h =>
          hac (singleton_inj.mp h).symm
        simp [getNodeAt, ChildMap.set, ChildMap.find, hsing]

theorem getNodeAt_addToken_off (cs : List Char) :
    ∀ (t : IndexItem) (p : List Char) r w, prePath p cs = false →
      getNodeAt (addTokenAt t cs r w) p = getNodeAt t p := by
  induction cs with
  | nil =>
    intro t p r w hp
    obtain ⟨d, f, ch⟩ := t
    cases p with
    | nil => simp [prePath] at hp
    | cons a p' => simp [addTokenAt, getNodeAt]
  | cons c cs' ih =>
    intro t p r w hp
    obtain ⟨d, f, ch⟩ := t
    cases p with
    | nil => rw [prePath_nil_left] at hp; exact absurd hp (by simp)
    | cons a p' =>
      by_cases hac : a = c
      · subst hac
        rw [prePath_cons] at hp
        simp at hp
        simp only [addTokenAt, getNodeAt, cfind_set, if_pos rfl]
        cases hfind : ch.find (String.singleton a) with
        | some child0 =>
          simp [hfind]
          exact ih child0 p' r w hp
        | none =>
          simp [hfind]
          exact addToken_empty_off cs' p' r w hp
      · have hsing : ¬ String.singleton c = String.singleton a := fun h =>
          hac (singleton_inj.mp h).symm
        simp only [addTokenAt, getNodeAt, cfind_set, if_neg hsing]

theorem getNodeAt_addToken_isSome (cs : List Char) :
    ∀ (t : IndexItem) (p : List Char) r w, prePath p cs = true →
      (getNodeAt (addTokenAt t cs r w) p).isSome = true := by
  induction cs with
  | nil =>
    intro t p r w hp
    rw [prePath_nil_right] at hp
    subst hp
    obtain ⟨d, f, ch⟩ := t
    simp [addTokenAt, getNodeAt]
  | cons c cs' ih =>
    intro t p r w hp
    obtain ⟨d, f, ch⟩ := t
    cases p with
    | nil => simp [getNodeAt]
    | cons a p' =>
      rw [prePath_cons] at hp
      simp at hp
      obtain ⟨hac, hp'⟩ := hp
      subst hac
      simp only [addTokenAt, getNodeAt, cfind_set, if_pos rfl]
      exact ih _ p' r w hp'

theorem optDocs_descend_found (d : List (String × GoNum)) (f : Int) (ch : ChildMap)
    (a : Char) (p' : List Char) (child : IndexItem)
    (h : ch.find (String.singleton a) = some child) :
    optDocs (.node d f ch) (a :: p') = optDocs child p' := by
  simp [optDocs, getNodeAt, h]

theorem optDocs_descend_missing (d : List (String × GoNum)) (f : Int) (ch : ChildMap)
    (a : Char) (p' : List Char) (h : ch.find (String.singleton a) = none) :
    optDocs (.node d f ch) (a :: p') = [] := by
  simp [optDocs, getNodeAt, h]

theorem optDf_descend_found (d : List (String × GoNum)) (f : Int) (ch : ChildMap)
    (a : Char) (p' : List Char) (child : IndexItem)
    (h : ch.find (String.singleton a) = some child) :
    optDf (.node d f ch) (a :: p') = optDf child p' := by
  simp [optDf, getNodeAt, h]

theorem optDf_descend_missing (d : List (String × GoNum)) (f : Int) (ch : ChildMap)
    (a : Char) (p' : List Char) (h : ch.find (String.singleton a) = none) :
    optDf (.node d f ch) (a :: p') = 0 := by
  simp [optDf, getNodeAt, h]

theorem optDocs_addToken (cs : List Char) :
    ∀ (t : IndexItem) (p : List Char) r w, prePath p cs = true →
      optDocs (addTokenAt t cs r w) p =
        if p = cs then insertKey (optDocs t cs) r w else optDocs t p := by
  induction cs with
  | nil =>
    intro t p r w hp
    rw [prePath_nil_right] at hp
    subst hp
    obtain ⟨d, f, ch⟩ := t
    simp [addTokenAt, optDocs, getNodeAt, IndexItem.docs]
  | cons c cs' ih =>
    intro t p r w hp
    obtain ⟨d, f, ch⟩ := t
    cases p with
    | nil =>
      simp only [addTokenAt]
      have : ([] : List Char) ≠ c :: cs' := by simp
      simp [optDocs, getNodeAt, IndexItem.docs, this]
    | cons a p' =>
      rw [prePath_cons] at hp
      simp at hp
      obtain ⟨hac, hp'⟩ := hp
      subst hac
      simp only [addTokenAt]
      have hnew : (ch.set (String.singleton a)
          (addTokenAt ((ch.find (String.singleton a)).getD emptyItem) cs' r w)).find
            (String.singleton a) =
          some (addTokenAt ((ch.find (String.singleton a)).getD emptyItem) cs' r w) := by
        rw [cfind_set, if_pos rfl]
      rw [optDocs_descend_found _ _ _ _ _ _ hnew, ih _ p' r w hp']
      cases hfind : ch.find (String.singleton a) with
      | some child0 =>
        simp only [Option.getD_some]
        by_cases hpeq : p' = cs'
        · subst hpeq
          simp [optDocs_descend_found d f ch a _ child0 hfind]
        · have hne : a :: p' ≠ a :: cs' := by simp [hpeq]
          simp only [if_neg hpeq, if_neg hne]
          exact (optDocs_descend_found d f ch a p' child0 hfind).symm
      | none =>
        simp only [Option.getD_none]
        by_cases hpeq : p' = cs'
        · subst hpeq
          simp [optDocs_descend_missing d f ch a _ hfind, optDocs_emptyItem]
        · have hne : a :: p' ≠ a :: cs' := by simp [hpeq]
          simp only [if_neg hpeq, if_neg hne]
          rw [optDocs_descend_missing d f ch a p' hfind, optDocs_emptyItem]

theorem optDf_addToken (cs : List Char) :
    ∀ (t : IndexItem) (p : List Char) r w, prePath p cs = true →
      optDf (addTokenAt t cs r w) p =
        if p = cs then
          (if (lookupKey (optDocs t cs) r).isNone then optDf t cs + 1 else optDf t cs)
        else optDf t p := by
  induction cs with
  | nil =>
    intro t p r w hp
    rw [prePath_nil_right] at hp
    subst hp
    obtain ⟨d, f, ch⟩ := t
    simp [addTokenAt, optDf, optDocs, getNodeAt, IndexItem.df, IndexItem.docs]
  | cons c cs' ih =>
    intro t p r w hp
    obtain ⟨d, f, ch⟩ := t
    cases p with
    | nil =>
      simp only [addTokenAt]
      have : ([] : List Char) ≠ c :: cs' := by simp
      simp [optDf, getNodeAt, IndexItem.df, this]
    | cons a p' =>
      rw [prePath_cons] at hp
      simp at hp
      obtain ⟨hac, hp'⟩ := hp
      subst hac
      simp only [addTokenAt]
      have hnew : (ch.set (String.singleton a)
          (addTokenAt ((ch.find (String.singleton a)).getD emptyItem) cs' r w)).find
            (String.singleton a) =
          some (addTokenAt ((ch.find (String.singleton a)).getD emptyItem) cs' r w) := by
        rw [cfind_set, if_pos rfl]
      rw [optDf_descend_found _ _ _ _ _ _ hnew, ih _ p' r w hp']
      cases hfind : ch.find (String.singleton a) with
      | some child0 =>
        simp only [Option.getD_some]
        by_cases hpeq : p' = cs'
        · subst hpeq
          simp [optDf_descend_found d f ch a _ child0 hfind,
                optDocs_descend_found d f ch a _ child0 hfind]
        · have hne : a :: p' ≠ a :: cs' := by simp [hpeq]
          simp only [if_neg hpeq, if_neg hne]
          exact (optDf_descend_found d f ch a p' child0 hfind).symm
      | none =>
        simp only [Option.getD_none]
        by_cases hpeq : p' = cs'
        · subst hpeq
          simp [optDf_descend_missing d f ch a _ hfind,
                optDocs_descend_missing d f ch a _ hfind,
                optDocs_emptyItem, optDf_emptyItem]
        · have hne : a :: p' ≠ a :: cs' := by simp [hpeq]
          simp only [if_neg hpeq, if_neg hne]
          rw [optDf_descend_missing d f ch a p' hfind, optDf_emptyItem]

/-! ### Lifting to `InvertedIndex.AddToken` and call sequences -/

theorem charBytes_pos (c : Char) : 1 ≤ charBytes c := by
  unfold charBytes
  by_cases h₁ : c.toNat < 0x80
  · simp [h₁]
  · by_cases h₂ : c.toNat < 0x800
    · simp [h₁, h₂]
    · by_cases h₃ : c.toNat < 0x10000 <;> simp [h₁, h₂, h₃]

theorem byteLen_eq_zero_iff (w : List Char) : byteLen w = 0 ↔ w = [] := by
  cases w with
  | nil => simp [byteLen]
  | cons c cs =>
    simp only [byteLen, List.map_cons, List.sum_cons]
    constructor
    · intro h
      have := charBytes_pos c
      omega
    · intro h; exact absurd h (by simp)

theorem str_eq_empty_iff (s : String) : s = "" ↔ s.data = [] := by
  cases s with
  | mk data =>
    show String.mk data = String.mk [] ↔ data = []
    constructor
    · intro h; exact congrArg String.data h
    · intro h; rw [h]

theorem data_inj {s t : String} : s.data = t.data ↔ s = t := by
  cases s with
  | mk d =>
    cases t with
    | mk d₀ =>
      constructor
      · intro h; exact congrArg String.mk h
      · intro h; exact congrArg String.data h

theorem getNodeAt_nil (t : IndexItem) : getNodeAt t [] = some t := by
  obtain ⟨d, f, ch⟩ := t
  rfl

theorem hasToken_addToken (ii : InvertedIndex) (r tok : String) (w : GoNum) (p : List Char) :
    (getNodeAt (ii.AddToken r tok w).Root p).isSome = true ↔
      ((getNodeAt ii.Root p).isSome = true ∨ prePath p tok.data = true) := by
  unfold InvertedIndex.AddToken
  by_cases hemp : byteLen tok.data = 0
  · rw [byteLen_eq_zero_iff] at hemp
    rw [hemp]
    simp only [byteLen, List.map_nil, List.sum_nil, if_pos rfl]
    cases p with
    | nil => simp [getNodeAt_nil]
    | cons a p' => simp [prePath]
  · rw [if_neg hemp]
    by_cases hpre : prePath p tok.data = true
    · simp only [hpre, or_true, iff_true]
      exact getNodeAt_addToken_isSome tok.data ii.Root p r w hpre
    · have hpre' : prePath p tok.data = false := by
        cases h : prePath p tok.data
        · rfl
        · exact absurd h hpre
      rw [getNodeAt_addToken_off tok.data ii.Root p r w hpre']
      simp [hpre']

theorem hasToken_applyCallsFrom (calls : List TokenCall) :
    ∀ (ii : InvertedIndex) (p : List Char),
      (getNodeAt (applyCallsFrom ii calls).Root p).isSome = true ↔
        ((getNodeAt ii.Root p).isSome = true ∨
          ∃ c ∈ calls, prePath p c.token.data = true) := by
  induction calls with
  | nil => intro ii p; simp [applyCallsFrom]
  | cons c₀ rest ih =>
    intro ii p
    show (getNodeAt (applyCallsFrom (ii.AddToken c₀.ref c₀.token c₀.weight) rest).Root p).isSome
        = true ↔ _
    rw [ih (ii.AddToken c₀.ref c₀.token c₀.weight) p,
        hasToken_addToken ii c₀.ref c₀.token c₀.weight p]
    constructor
    · rintro ((h | h) | ⟨c, hc, hp⟩)
      · exact Or.inl h
      · exact Or.inr ⟨c₀, List.mem_cons_self _ _, h⟩
      · exact Or.inr ⟨c, List.mem_cons_of_mem _ hc, hp⟩
    · rintro (h | ⟨c, hc, hp⟩)
      · exact Or.inl (Or.inl h)
      · cases List.mem_cons.mp hc with
        | inl hhead => exact Or.inl (Or.inr (hhead ▸ hp))
        | inr htail => exact Or.inr ⟨c, htail, hp⟩

theorem optDocs_congr_node {t₁ t₂ : IndexItem} (p : List Char)
    (h : getNodeAt t₁ p = getNodeAt t₂ p) : optDocs t₁ p = optDocs t₂ p := by
  unfold optDocs
  rw [h]

theorem optDf_congr_node {t₁ t₂ : IndexItem} (p : List Char)
    (h : getNodeAt t₁ p = getNodeAt t₂ p) : optDf t₁ p = optDf t₂ p := by
  unfold optDf
  rw [h]

theorem optDocs_addToken_other (ii : InvertedIndex) (r tok other : String) (w : GoNum)
    (hne : other ≠ tok) :
    optDocs (ii.AddToken r tok w).Root other.data = optDocs ii.Root other.data := by
  unfold InvertedIndex.AddToken
  by_cases hemp : byteLen tok.data = 0
  · rw [if_pos hemp]
  · rw [if_neg hemp]
    by_cases hpre : prePath other.data tok.data = true
    · rw [optDocs_addToken tok.data ii.Root other.data r w hpre]
      have : other.data ≠ tok.data := fun h => hne (data_inj.mp h)
      rw [if_neg this]
    · have hpre' : prePath other.data tok.data = false := by
        cases h : prePath other.data tok.data
        · rfl
        · exact absurd h hpre
      exact optDocs_congr_node other.data
        (getNodeAt_addToken_off tok.data ii.Root other.data r w hpre')

theorem optDocs_addToken_self (ii : InvertedIndex) (r tok : String) (w : GoNum)
    (hne : tok ≠ "") :
    optDocs (ii.AddToken r tok w).Root tok.data =
      insertKey (optDocs ii.Root tok.data) r w := by
  unfold InvertedIndex.AddToken
  have hemp : ¬ byteLen tok.data = 0 := by
    rw [byteLen_eq_zero_iff]
    intro h
    exact hne ((str_eq_empty_iff tok).mpr h)
  rw [if_neg hemp]
  rw [optDocs_addToken tok.data ii.Root tok.data r w (prePath_refl tok.data), if_pos rfl]

theorem optDocs_applyCallsFrom (calls : List TokenCall) :
    ∀ (ii : InvertedIndex) (tok : String), tok ≠ "" →
      optDocs (applyCallsFrom ii calls).Root tok.data =
        (calls.filter fun c => c.token = tok).foldl
          (fun d c => insertKey d c.ref c.weight) (optDocs ii.Root tok.data) := by
  induction calls with
  | nil => intro ii tok _; simp [applyCallsFrom]
  | cons c₀ rest ih =>
    intro ii tok hne
    show optDocs (applyCallsFrom (ii.AddToken c₀.ref c₀.token c₀.weight) rest).Root tok.data = _
    rw [ih (ii.AddToken c₀.ref c₀.token c₀.weight) tok hne]
    by_cases heq : c₀.token = tok
    · have hstep : optDocs (ii.AddToken c₀.ref c₀.token c₀.weight).Root tok.data =
          insertKey (optDocs ii.Root tok.data) c₀.ref c₀.weight := by
        rw [heq]
        exact optDocs_addToken_self ii c₀.ref tok c₀.weight hne
      rw [hstep, List.filter_cons, if_pos (by simp [heq]), List.foldl_cons]
    · rw [optDocs_addToken_other ii c₀.ref c₀.token tok c₀.weight
            (fun h => heq h.symm),
          List.filter_cons, if_neg (by simp [heq])]

/-! ### The `DF = |Docs|` invariant at every reachable node -/

theorem docsInv_addTokenAt (t : IndexItem) (cs : List Char) (r : String) (w : GoNum)
    (h : ∀ q, NodupKeys (optDocs t q) ∧ optDf t q = ((optDocs t q).length : Int)) :
    ∀ p, NodupKeys (optDocs (addTokenAt t cs r w) p) ∧
      optDf (addTokenAt t cs r w) p = ((optDocs (addTokenAt t cs r w) p).length : Int) := by
  intro p
  by_cases hpre : prePath p cs = true
  · rw [optDocs_addToken cs t p r w hpre, optDf_addToken cs t p r w hpre]
    by_cases hpeq : p = cs
    · subst hpeq
      rw [if_pos rfl, if_pos rfl]
      refine ⟨nodup_insert _ r w (h p).1, ?_⟩
      rw [length_insert]
      cases hl : (lookupKey (optDocs t p) r).isNone
      · simp [hl, (h p).2]
      · simp [hl, (h p).2]
    · rw [if_neg hpeq, if_neg hpeq]
      exact h p
  · have hpre' : prePath p cs = false := by
      cases hb : prePath p cs
      · rfl
      · exact absurd hb hpre
    have hoff := getNodeAt_addToken_off cs t p r w hpre'
    rw [optDocs_congr_node p hoff, optDf_congr_node p hoff]
    exact h p

theorem docsInv_AddToken (ii : InvertedIndex) (r tok : String) (w : GoNum)
    (h : ∀ q, NodupKeys (optDocs ii.Root q) ∧ optDf ii.Root q = ((optDocs ii.Root q).length : Int)) :
    ∀ p, NodupKeys (optDocs (ii.AddToken r tok w).Root p) ∧
      optDf (ii.AddToken r tok w).Root p = ((optDocs (ii.AddToken r tok w).Root p).length : Int) := by
  unfold InvertedIndex.AddToken
  by_cases hemp : byteLen tok.data = 0
  · rw [if_pos hemp]; exact h
  · rw [if_neg hemp]
    exact docsInv_addTokenAt ii.Root tok.data r w h

theorem docsInv_applyCallsFrom (calls : List TokenCall) :
    ∀ ii : InvertedIndex,
      (∀ q, NodupKeys (optDocs ii.Root q) ∧ optDf ii.Root q = ((optDocs ii.Root q).length : Int)) →
      ∀ p, NodupKeys (optDocs (applyCallsFrom ii calls).Root p) ∧
        optDf (applyCallsFrom ii calls).Root p =
          ((optDocs (applyCallsFrom ii calls).Root p).length : Int) := by
  induction calls with
  | nil => intro ii h; exact h
  | cons c₀ rest ih =>
    intro ii h
    exact ih (ii.AddToken c₀.ref c₀.token c₀.weight)
      (docsInv_AddToken ii c₀.ref c₀.token c₀.weight h)

theorem docsInv_empty :
    ∀ q, NodupKeys (optDocs emptyItem q) ∧ optDf emptyItem q = ((optDocs emptyItem q).length : Int) := by
  intro q
  rw [optDocs_emptyItem, optDf_emptyItem]
  exact ⟨List.nodup_nil, by simp⟩

theorem docsInv_applyCalls (calls : List TokenCall) :
    ∀ p, NodupKeys (optDocs (applyCalls calls).Root p) ∧
      optDf (applyCalls calls).Root p = ((optDocs (applyCalls calls).Root p).length : Int) :=
  docsInv_applyCallsFrom calls NewInvertedIndex docsInv_empty

/-! ### `DF` never decreases -/

theorem optDf_mono_addTokenAt (t : IndexItem) (cs : List Char) (r : String) (w : GoNum)
    (p : List Char) : optDf t p ≤ optDf (addTokenAt t cs r w) p := by
  by_cases hpre : prePath p cs = true
  · rw [optDf_addToken cs t p r w hpre]
    by_cases hpeq : p = cs
    · subst hpeq
      rw [if_pos rfl]
      cases hl : (lookupKey (optDocs t p) r).isNone
      · simp [hl]
      · simp [hl]
    · rw [if_neg hpeq]
  · have hpre' : prePath p cs = false := by
      cases hb : prePath p cs
      · rfl
      · exact absurd hb hpre
    rw [optDf_congr_node p (getNodeAt_addToken_off cs t p r w hpre')]

theorem optDf_mono_AddToken (ii : InvertedIndex) (r tok : String) (w : GoNum) (p : List Char) :
    optDf ii.Root p ≤ optDf (ii.AddToken r tok w).Root p := by
  unfold InvertedIndex.AddToken
  by_cases hemp : byteLen tok.data = 0
  · rw [if_pos hemp]
  · rw [if_neg hemp]
    exact optDf_mono_addTokenAt ii.Root tok.data r w p

/-! ### Preservation of the reachability invariant -/

theorem singleton_data (c : Char) : (String.singleton c).data = [c] := rfl

theorem wf_emptyItem : WFItem emptyItem := by
  refine WFItem.node [] 0 .nil ?_ ?_ ?_ ?_ ?_
  · exact List.nodup_nil
  · simp
  · intro k hk; simp [ChildMap.keys] at hk
  · simp [ChildMap.keys]
  · intro k t hfind; simp [ChildMap.find] at hfind

theorem wf_addTokenAt (cs : List Char) : ∀ (t : IndexItem) (r : String) (w : GoNum),
    WFItem t → WFItem (addTokenAt t cs r w) := by
  induction cs with
  | nil =>
    intro t r w h
    cases h with
    | node docs df ch hnd hdf hk1 hknd hch =>
      refine WFItem.node _ _ _ (nodup_insert docs r w hnd) ?_ hk1 hknd hch
      rw [length_insert]
      cases hl : (lookupKey docs r).isNone
      · simp [hl, hdf]
      · simp [hl, hdf]
  | cons c cs' ih =>
    intro t r w h
    cases h with
    | node docs df ch hnd hdf hk1 hknd hch =>
      have hwfchild : WFItem ((ch.find (String.singleton c)).getD emptyItem) := by
        cases hf : ch.find (String.singleton c) with
        | some c0 =>
          rw [Option.getD_some]
          exact hch _ c0 hf
        | none =>
          rw [Option.getD_none]
          exact wf_emptyItem
      have hwfX := ih ((ch.find (String.singleton c)).getD emptyItem) r w hwfchild
      show WFItem (.node docs df (ch.set (String.singleton c) _))
      by_cases hmem : String.singleton c ∈ ch.keys
      · refine WFItem.node _ _ _ hnd hdf ?_ ?_ ?_
        · rw [ckeys_set_of_mem ch _ _ hmem]; exact hk1
        · rw [ckeys_set_of_mem ch _ _ hmem]; exact hknd
        · intro k t' hfind
          rw [cfind_set] at hfind
          by_cases hk : String.singleton c = k
          · rw [if_pos hk] at hfind
            injection hfind with h'
            exact h' ▸ hwfX
          · rw [if_neg hk] at hfind
            exact hch k t' hfind
      · refine WFItem.node _ _ _ hnd hdf ?_ ?_ ?_
        · rw [ckeys_set_of_not_mem ch _ _ hmem]
          intro k hk
          rcases List.mem_append.mp hk with hk | hk
          · exact hk1 k hk
          · rw [List.mem_singleton] at hk
            subst hk
            rfl
        · rw [ckeys_set_of_not_mem ch _ _ hmem]
          rw [List.nodup_append]
          refine ⟨hknd, List.nodup_singleton _, ?_⟩
          intro a ha hsing
          rw [List.mem_singleton] at hsing
          subst hsing
          exact hmem ha
        · intro k t' hfind
          rw [cfind_set] at hfind
          by_cases hk : String.singleton c = k
          · rw [if_pos hk] at hfind
            injection hfind with h'
            exact h' ▸ hwfX
          · rw [if_neg hk] at hfind
            exact hch k t' hfind

theorem wf_AddToken (ii : InvertedIndex) (r tok : String) (w : GoNum)
    (h : WFItem ii.Root) : WFItem (ii.AddToken r tok w).Root := by
  unfold InvertedIndex.AddToken
  by_cases hemp : byteLen tok.data = 0
  · rw [if_pos hemp]; exact h
  · rw [if_neg hemp]
    exact wf_addTokenAt tok.data ii.Root r w h

theorem wf_applyCallsFrom (calls : List TokenCall) :
    ∀ ii : InvertedIndex, WFItem ii.Root → WFItem (applyCallsFrom ii calls).Root := by
  induction calls with
  | nil => intro ii h; exact h
  | cons c₀ rest ih =>
    intro ii h
    exact ih (ii.AddToken c₀.ref c₀.token c₀.weight)
      (wf_AddToken ii c₀.ref c₀.token c₀.weight h)

theorem wf_applyCalls (calls : List TokenCall) : WFItem (applyCalls calls).Root :=
  wf_applyCallsFrom calls NewInvertedIndex wf_emptyItem

/-! ### Round trip of the wire format -/

theorem ckeys_append : (a : ChildMap) → ∀ b : ChildMap,
    (a.append b).keys = a.keys ++ b.keys
  | .nil => by intro b; simp [ChildMap.append, ChildMap.keys]
  | .cons k t rest => by intro b; simp [ChildMap.append, ChildMap.keys, ckeys_append rest b]

theorem parse_docsFields (docs : List (String × GoNum)) :
    ∀ acc, parseDocsFields acc (docsFields docs) =
      docs.foldl (fun a p => insertKey a p.1 p.2) acc := by
  induction docs with
  | nil => intro acc; rfl
  | cons p rest ih =>
    intro acc
    obtain ⟨r, w⟩ := p
    show parseDocsFields acc (.cons r (.obj (.cons "tf" (.num w) .nil)) (docsFields rest)) = _
    rw [show parseDocsFields acc (.cons r (.obj (.cons "tf" (.num w) .nil)) (docsFields rest)) =
          parseDocsFields (insertKey acc r w) (docsFields rest) from rfl]
    rw [ih (insertKey acc r w)]
    rfl

theorem unmarshal_children_fold : (ch : ChildMap) →
    ∀ (docs : List (String × GoNum)) (df : Int) (cacc : ChildMap),
    (∀ k t, ch.find k = some t → unmarshalItem (marshalItem t) = some t) →
    (∀ k, k ∈ ch.keys → k.data.length = 1) → ch.keys.Nodup →
    (∀ k, k ∈ ch.keys → k ∉ cacc.keys) →
    unmarshalFields (marshalChildren ch) (.node docs df cacc) = .node docs df (cacc.append ch)
  | .nil => by
    intro docs df cacc _ _ _ _
    rw [show marshalChildren .nil = .nil from rfl, cappend_nil]
    rfl
  | .cons k t rest => by
    intro docs df cacc hround hk1 hknd hdisj
    have hkmem : k ∈ (ChildMap.cons k t rest).keys := by
      rw [ChildMap.keys]; exact List.mem_cons_self _ _
    have hk : k.data.length = 1 := hk1 k hkmem
    have hkdocs : ¬ k = "docs" := fun h => by subst h; exact absurd hk (by decide)
    have hkdf : ¬ k = "df" := fun h => by subst h; exact absurd hk (by decide)
    have hknotrest : k ∉ rest.keys := by
      rw [ChildMap.keys] at hknd
      exact (List.nodup_cons.mp hknd).1
    have hheadfind : (ChildMap.cons k t rest).find k = some t := by
      simp [ChildMap.find]
    have hroundhead := hround k t hheadfind
    rw [show marshalChildren (.cons k t rest) =
          .cons k (marshalItem t) (marshalChildren rest) from rfl]
    rw [show unmarshalFields (.cons k (marshalItem t) (marshalChildren rest))
          (.node docs df cacc) =
        (if k = "docs" then
          unmarshalFields (marshalChildren rest)
            (.node (parseDocsInto docs (marshalItem t)) df cacc)
        else if k = "df" then
          (match marshalItem t with
          | .num x => unmarshalFields (marshalChildren rest) (.node docs x.toInt64 cacc)
          | _ => unmarshalFields (marshalChildren rest) (.node docs df cacc))
        else
          (match unmarshalItem (marshalItem t) with
          | some child =>
            unmarshalFields (marshalChildren rest) (.node docs df (cacc.set k child))
          | none => unmarshalFields (marshalChildren rest) (.node docs df cacc)))
        from rfl]
    rw [if_neg hkdocs, if_neg hkdf, hroundhead]
    have hsetapp : cacc.set k t = cacc.append (.cons k t .nil) :=
      cset_of_not_mem cacc k t (hdisj k hkmem)
    have hround' : ∀ k' t', rest.find k' = some t' →
        unmarshalItem (marshalItem t') = some t' := by
      intro k' t' hfind
      have hk'mem : k' ∈ rest.keys :=
        (cfind_isSome_iff_mem rest k').mp (by rw [hfind]; rfl)
      have hk'ne : ¬ k = k' := fun h => hknotrest (h ▸ hk'mem)
      exact hround k' t' (by simp [ChildMap.find, hk'ne, hfind])
    have hk1' : ∀ k', k' ∈ rest.keys → k'.data.length = 1 := by
      intro k' hmem
      exact hk1 k' (by rw [ChildMap.keys]; exact List.mem_cons_of_mem _ hmem)
    have hknd' : rest.keys.Nodup := by
      rw [ChildMap.keys] at hknd
      exact (List.nodup_cons.mp hknd).2
    have hdisj' : ∀ k', k' ∈ rest.keys → k' ∉ (cacc.append (.cons k t .nil)).keys := by
      intro k' hmem
      rw [ckeys_append]
      rw [List.mem_append]
      rintro (hacc | hsing)
      · exact hdisj k' (by rw [ChildMap.keys]; exact List.mem_cons_of_mem _ hmem) hacc
      · rw [show (ChildMap.cons k t .nil).keys = [k] from rfl, List.mem_singleton] at hsing
        exact hknotrest (hsing ▸ hmem)
    show unmarshalFields (marshalChildren rest) (.node docs df (cacc.set k t)) = _
    rw [hsetapp, unmarshal_children_fold rest docs df (cacc.append (.cons k t .nil))
          hround' hk1' hknd' hdisj']
    rw [cappend_assoc]
    rfl

theorem unmarshal_marshal_of_wf (t : IndexItem) (h : WFItem t) :
    unmarshalItem (marshalItem t) = some t := by
  induction h with
  | node docs df ch hnd hdf hk1 hknd hch ih =>
    rw [show marshalItem (.node docs df ch) =
          .obj (docsPart docs (dfPart df (marshalChildren ch))) from rfl]
    rw [show unmarshalItem (.obj (docsPart docs (dfPart df (marshalChildren ch)))) =
          some (unmarshalFields (docsPart docs (dfPart df (marshalChildren ch))) emptyItem)
        from rfl]
    have hnilkeys : ∀ k, k ∈ ch.keys → k ∉ ChildMap.nil.keys := by
      intro k _ hk
      simp [ChildMap.keys] at hk
    by_cases hdocs : docs = []
    · subst hdocs
      have hdf0 : df = 0 := by simpa using hdf
      subst hdf0
      rw [show docsPart [] (dfPart 0 (marshalChildren ch)) =
            dfPart 0 (marshalChildren ch) from by simp [docsPart]]
      rw [show dfPart 0 (marshalChildren ch) = marshalChildren ch from by simp [dfPart]]
      rw [show emptyItem = IndexItem.node [] 0 .nil from rfl]
      rw [unmarshal_children_fold ch [] 0 .nil ih hk1 hknd hnilkeys]
      rw [show ChildMap.nil.append ch = ch from rfl]
    · have hlen : 0 < docs.length := List.length_pos.mpr hdocs
      have hdfpos : 0 < df := by rw [hdf]; exact_mod_cast hlen
      rw [show docsPart docs (dfPart df (marshalChildren ch)) =
            .cons "docs" (.obj (docsFields docs)) (dfPart df (marshalChildren ch))
          from by simp [docsPart, hlen]]
      rw [show dfPart df (marshalChildren ch) =
            .cons "df" (.num (.int df)) (marshalChildren ch)
          from by simp [dfPart, hdfpos]]
      rw [show unmarshalFields
            (.cons "docs" (.obj (docsFields docs))
              (.cons "df" (.num (.int df)) (marshalChildren ch))) emptyItem =
          unmarshalFields (.cons "df" (.num (.int df)) (marshalChildren ch))
            (.node (parseDocsFields [] (docsFields docs)) 0 .nil) from rfl]
      rw [parse_docsFields docs []]
      rw [foldInsert_of_disjoint docs [] hnd (by intro k _ hk; simp [keysOf_nil] at hk)]
      rw [List.nil_append]
      rw [show unmarshalFields (.cons "df" (.num (.int df)) (marshalChildren ch))
            (.node docs 0 .nil) =
          unmarshalFields (marshalChildren ch) (.node docs df .nil) from rfl]
      rw [unmarshal_children_fold ch docs df .nil ih hk1 hknd hnilkeys]
      rw [show ChildMap.nil.append ch = ch from rfl]

/-! ### Tokenizer properties -/

theorem isSep_false_of_mid (c : Char) (h1 : 46 ≤ c.toNat) (h2 : c.toNat ≤ 132) :
    isSep c = false := by
  simp only [isSep, goIsSpace, Bool.or_eq_false_iff, decide_eq_false_iff_not]
  refine ⟨⟨⟨⟨⟨⟨⟨⟨⟨⟨?_, ?_⟩, ?_⟩, ?_⟩, ?_⟩, ?_⟩, ?_⟩, ?_⟩, ?_⟩, ?_⟩, ?_⟩
  all_goals first
    | omega
    | (intro h; exact absurd (h ▸ h1) (by decide))

theorem toNat_goCharLower_of_upper (c : Char) (h1 : 65 ≤ c.toNat) (h2 : c.toNat ≤ 90) :
    (goCharLower c).toNat = c.toNat + 32 := by
  have hv : (c.toNat + 32).isValidChar := Or.inl (by omega)
  rw [goCharLower, if_pos ⟨h1, h2⟩, Char.ofNat, dif_pos hv]
  rfl

theorem goCharLower_idem (c : Char) : goCharLower (goCharLower c) = goCharLower c := by
  by_cases h : 65 ≤ c.toNat ∧ c.toNat ≤ 90
  · have htn : (goCharLower c).toNat = c.toNat + 32 :=
      toNat_goCharLower_of_upper c h.1 h.2
    rw [show goCharLower (goCharLower c) =
          (if 65 ≤ (goCharLower c).toNat ∧ (goCharLower c).toNat ≤ 90 then
            Char.ofNat ((goCharLower c).toNat + 32) else goCharLower c) from rfl]
    rw [if_neg (by rw [htn]; omega)]
  · rw [show goCharLower c = if 65 ≤ c.toNat ∧ c.toNat ≤ 90 then
          Char.ofNat (c.toNat + 32) else c from rfl, if_neg h]
    rw [show goCharLower c = if 65 ≤ c.toNat ∧ c.toNat ≤ 90 then
          Char.ofNat (c.toNat + 32) else c from rfl, if_neg h]

theorem isSep_goCharLower_of_not_sep (c : Char) (h : isSep c = false) :
    isSep (goCharLower c) = false := by
  by_cases hup : 65 ≤ c.toNat ∧ c.toNat ≤ 90
  · have htn : (goCharLower c).toNat = c.toNat + 32 :=
      toNat_goCharLower_of_upper c hup.1 hup.2
    exact isSep_false_of_mid _ (by omega) (by omega)
  · rw [show goCharLower c = if 65 ≤ c.toNat ∧ c.toNat ≤ 90 then
          Char.ofNat (c.toNat + 32) else c from rfl, if_neg hup]
    exact h

theorem mem_trimSpace_sub (w : List Char) (c : Char) (h : c ∈ trimSpace w) : c ∈ w := by
  unfold trimSpace at h
  rw [List.mem_reverse] at h
  have h1 := List.dropWhile_sublist (l := (w.dropWhile goIsSpace).reverse) (p := goIsSpace)
  have h2 := h1.mem h
  rw [List.mem_reverse] at h2
  exact (List.dropWhile_sublist (l := w) (p := goIsSpace)).mem h2

theorem mem_emitTok (word : List Char) (t : String) (h : t ∈ emitTok word) :
    t = ⟨lowerChars (trimSpace word)⟩ ∧ t ≠ "" ∧ byteLen t.data ≤ 80 := by
  unfold emitTok at h
  by_cases hcond : (⟨lowerChars (trimSpace word)⟩ : String) ≠ "" ∧
      byteLen (⟨lowerChars (trimSpace word)⟩ : String).data ≤ maxWordLengthToIndex
  · rw [if_pos hcond] at h
    rw [List.mem_singleton] at h
    subst h
    exact ⟨rfl, hcond.1, hcond.2⟩
  · rw [if_neg hcond] at h
    exact absurd h (List.not_mem_nil t)

theorem emitTok_char_props (word : List Char) (hsep : ∀ c ∈ word, isSep c = false)
    (t : String) (h : t ∈ emitTok word) :
    ∀ c ∈ t.data, isSep c = false ∧ goCharLower c = c := by
  obtain ⟨ht, _, _⟩ := mem_emitTok word t h
  subst ht
  intro c hc
  rw [show (⟨lowerChars (trimSpace word)⟩ : String).data = lowerChars (trimSpace word)
        from rfl] at hc
  unfold lowerChars at hc
  rw [List.mem_map] at hc
  obtain ⟨c₀, hc₀, hlow⟩ := hc
  subst hlow
  have hc₀sep : isSep c₀ = false := hsep c₀ (mem_trimSpace_sub word c₀ hc₀)
  exact ⟨isSep_goCharLower_of_not_sep c₀ hc₀sep, goCharLower_idem c₀⟩

theorem mem_tokLoop_props (l : List Char) :
    ∀ (word : List Char), (∀ c ∈ word, isSep c = false) →
      ∀ t ∈ tokLoop word l,
        t ≠ "" ∧ byteLen t.data ≤ 80 ∧ ∀ c ∈ t.data, isSep c = false ∧ goCharLower c = c := by
  induction l with
  | nil =>
    intro word hw t ht
    rw [show tokLoop word [] = if word ≠ [] then emitTok word else [] from rfl] at ht
    by_cases hne : word ≠ []
    · rw [if_pos hne] at ht
      obtain ⟨_, h2, h3⟩ := mem_emitTok word t ht
      exact ⟨h2, h3, emitTok_char_props word hw t ht⟩
    · rw [if_neg hne] at ht
      exact absurd ht (List.not_mem_nil t)
  | cons r rest ih =>
    intro word hw t ht
    rw [show tokLoop word (r :: rest) =
          (if isSep r then (if word ≠ [] then emitTok word else []) ++ tokLoop [] rest
           else tokLoop (word ++ [r]) rest) from rfl] at ht
    by_cases hr : isSep r = true
    · rw [if_pos hr] at ht
      rcases List.mem_append.mp ht with hflush | hrec
      · by_cases hne : word ≠ []
        · rw [if_pos hne] at hflush
          obtain ⟨_, h2, h3⟩ := mem_emitTok word t hflush
          exact ⟨h2, h3, emitTok_char_props word hw t hflush⟩
        · rw [if_neg hne] at hflush
          exact absurd hflush (List.not_mem_nil t)
      · exact ih [] (by intro c hc; exact absurd hc (List.not_mem_nil c)) t hrec
    · rw [if_neg hr] at ht
      refine ih (word ++ [r]) ?_ t ht
      intro c hc
      rcases List.mem_append.mp hc with hc | hc
      · exact hw c hc
      · rw [List.mem_singleton] at hc
        subst hc
        cases hb : isSep c
        · rfl
        · exact absurd hb hr

theorem mem_tokenize_props (text : String) (t : String) (ht : t ∈ tokenize text) :
    t ≠ "" ∧ byteLen t.data ≤ 80 ∧ ∀ c ∈ t.data, isSep c = false ∧ goCharLower c = c :=
  mem_tokLoop_props text.data [] (by intro c hc; exact absurd hc (List.not_mem_nil c)) t ht

theorem trimSpace_of_no_sep (w : List Char) (h : ∀ c ∈ w, isSep c = false) :
    trimSpace w = w := by
  have hsp : ∀ c ∈ w, goIsSpace c = false := by
    intro c hc
    have := h c hc
    unfold isSep at this
    exact (Bool.or_eq_false_iff.mp this).1
  have h1 : w.dropWhile goIsSpace = w := by
    cases w with
    | nil => rfl
    | cons a l =>
      rw [List.dropWhile_cons, if_neg]
      rw [hsp a (List.mem_cons_self a l)]
      simp
  unfold trimSpace
  rw [h1]
  have h2 : w.reverse.dropWhile goIsSpace = w.reverse := by
    cases hw : w.reverse with
    | nil => rfl
    | cons a l =>
      rw [List.dropWhile_cons, if_neg]
      have : a ∈ w := by
        rw [← List.mem_reverse, hw]
        exact List.mem_cons_self a l
      rw [hsp a this]
      simp
  rw [h2, List.reverse_reverse]

theorem tokLoop_no_sep (l : List Char) :
    ∀ word : List Char, (∀ c ∈ l, isSep c = false) →
      tokLoop word l = (if word ++ l ≠ [] then emitTok (word ++ l) else []) := by
  induction l with
  | nil =>
    intro word _
    rw [show tokLoop word [] = if word ≠ [] then emitTok word else [] from rfl]
    simp
  | cons r rest ih =>
    intro word hl
    have hr : isSep r = false := hl r (List.mem_cons_self r rest)
    rw [show tokLoop word (r :: rest) =
          (if isSep r then (if word ≠ [] then emitTok word else []) ++ tokLoop [] rest
           else tokLoop (word ++ [r]) rest) from rfl]
    rw [hr]
    simp only [Bool.false_eq_true, if_false]
    rw [ih (word ++ [r]) (fun c hc => hl c (List.mem_cons_of_mem r hc))]
    simp

theorem tokenize_single_word (w : List Char) (hne : w ≠ [])
    (hsep : ∀ c ∈ w, isSep c = false) :
    tokenize ⟨w⟩ = if byteLen (lowerChars w) ≤ 80 then [⟨lowerChars w⟩] else [] := by
  rw [show tokenize ⟨w⟩ = tokLoop [] w from rfl, tokLoop_no_sep w [] hsep]
  rw [List.nil_append]
  rw [if_pos hne]
  unfold emitTok
  rw [trimSpace_of_no_sep w hsep]
  have hne' : (⟨lowerChars w⟩ : String) ≠ "" := by
    simp only [ne_eq, str_eq_empty_iff]
    unfold lowerChars
    simpa using hne
  by_cases hlen : byteLen (lowerChars w) ≤ 80
  · rw [if_pos ⟨hne', hlen⟩, if_pos hlen]
  · rw [if_neg, if_neg hlen]
    intro hcond
    exact hlen hcond.2

/-! ### Counting distinct keys of insertion folds -/

theorem mem_keys_insert {κ β : Type} [DecidableEq κ] (m : List (κ × β)) (k k' : κ) (v : β) :
    k' ∈ keysOf (insertKey m k v) ↔ k' = k ∨ k' ∈ keysOf m := by
  rw [← lookup_isSome_iff_mem, lookup_insert]
  by_cases h : k = k'
  · subst h; simp
  · have h' : ¬ k' = k := fun hk => h hk.symm
    simp [h, h', lookup_isSome_iff_mem]

theorem mem_keys_foldInsert {α β : Type} (key : α → String) (val : α → β) (l : List α) :
    ∀ (d : List (String × β)) (r : String),
      r ∈ keysOf (l.foldl (fun d a => insertKey d (key a) (val a)) d) ↔
        r ∈ keysOf d ∨ r ∈ l.map key := by
  induction l with
  | nil => intro d r; simp
  | cons a rest ih =>
    intro d r
    rw [List.foldl_cons, ih (insertKey d (key a) (val a)) r, mem_keys_insert]
    rw [List.map_cons, List.mem_cons]
    tauto

theorem nodup_keys_foldInsert {α β : Type} (key : α → String) (val : α → β) (l : List α) :
    ∀ d : List (String × β), NodupKeys d →
      NodupKeys (l.foldl (fun d a => insertKey d (key a) (val a)) d) := by
  induction l with
  | nil => intro d h; exact h
  | cons a rest ih =>
    intro d h
    exact ih (insertKey d (key a) (val a)) (nodup_insert d (key a) (val a) h)

theorem length_eq_of_nodup_of_mem_iff {l₁ l₂ : List String} (h₁ : l₁.Nodup) (h₂ : l₂.Nodup)
    (h : ∀ a, a ∈ l₁ ↔ a ∈ l₂) : l₁.length = l₂.length :=
  ((List.perm_ext_iff_of_nodup h₁ h₂).mpr h).length_eq

theorem length_foldInsert {α β : Type} (key : α → String) (val : α → β) (l : List α) :
    (l.foldl (fun d a => insertKey d (key a) (val a)) []).length =
      (l.map key).dedup.length := by
  have hkeys : (keysOf (l.foldl (fun d a => insertKey d (key a) (val a)) [])).length =
      (l.map key).dedup.length := by
    refine length_eq_of_nodup_of_mem_iff
      (nodup_keys_foldInsert key val l [] List.nodup_nil)
      (List.nodup_dedup _) ?_
    intro r
    rw [mem_keys_foldInsert key val l [] r, List.mem_dedup]
    simp [keysOf_nil]
  rw [← hkeys]
  unfold keysOf
  rw [List.length_map]

/-! ### Document store -/

theorem getDoc_dsAddDoc_self (ds : DocumentStore) (r : String) (doc : Document) :
    (ds.AddDoc r doc).GetDoc r = some (if ds.Save then doc else []) := by
  unfold DocumentStore.AddDoc DocumentStore.GetDoc
  exact lookup_insert_self ds.Docs r _

theorem getDoc_dsAddDoc_other (ds : DocumentStore) (r r' : String) (doc : Document)
    (h : r ≠ r') : (ds.AddDoc r doc).GetDoc r' = ds.GetDoc r' := by
  unfold DocumentStore.AddDoc DocumentStore.GetDoc
  exact lookup_insert_ne ds.Docs r r' _ h

theorem length_dsAddDoc (ds : DocumentStore) (r : String) (doc : Document) :
    (ds.AddDoc r doc).DSLength =
      if ds.HasDoc r then ds.DSLength else ds.DSLength + 1 := by
  unfold DocumentStore.AddDoc DocumentStore.HasDoc
  cases h : lookupKey ds.Docs r <;> simp [h]

theorem dsInv_applyDocCallsFrom (calls : List (String × Document)) :
    ∀ ds : DocumentStore, NodupKeys ds.Docs →
      ds.DSLength = (keysOf ds.Docs).length →
      NodupKeys (applyDocCallsFrom ds calls).Docs ∧
      (applyDocCallsFrom ds calls).DSLength =
        (keysOf (applyDocCallsFrom ds calls).Docs).length ∧
      (∀ r, r ∈ keysOf (applyDocCallsFrom ds calls).Docs ↔
        r ∈ keysOf ds.Docs ∨ r ∈ calls.map Prod.fst) := by
  induction calls with
  | nil =>
    intro ds h1 h2
    exact ⟨h1, h2, by intro r; simp [applyDocCallsFrom]⟩
  | cons c rest ih =>
    intro ds h1 h2
    obtain ⟨r₀, doc₀⟩ := c
    have hstep : applyDocCallsFrom ds ((r₀, doc₀) :: rest) =
        applyDocCallsFrom (ds.AddDoc r₀ doc₀) rest := rfl
    have hdocs : (ds.AddDoc r₀ doc₀).Docs =
        insertKey ds.Docs r₀ (if ds.Save then doc₀ else []) := rfl
    have h1' : NodupKeys (ds.AddDoc r₀ doc₀).Docs := by
      rw [hdocs]; exact nodup_insert _ _ _ h1
    have h2' : (ds.AddDoc r₀ doc₀).DSLength = (keysOf (ds.AddDoc r₀ doc₀).Docs).length := by
      rw [hdocs]
      show (if (lookupKey ds.Docs r₀).isNone then ds.DSLength + 1 else ds.DSLength) = _
      unfold keysOf
      rw [List.length_map, length_insert]
      unfold keysOf at h2
      rw [List.length_map] at h2
      cases h : (lookupKey ds.Docs r₀).isNone <;> simp [h, h2]
    obtain ⟨g1, g2, g3⟩ := ih (ds.AddDoc r₀ doc₀) h1' h2'
    rw [hstep]
    refine ⟨g1, g2, ?_⟩
    intro r
    rw [g3 r, hdocs, mem_keys_insert]
    rw [List.map_cons, List.mem_cons]
    tauto

/-! ### Reading `GetDocFrequency` and `GetDocs` through the path observations -/

theorem getDocFrequency_eq_optDf (ii : InvertedIndex) (tok : String) :
    ii.GetDocFrequency tok = optDf ii.Root tok.data := by
  unfold InvertedIndex.GetDocFrequency InvertedIndex.GetNode optDf
  cases getNodeAt ii.Root tok.data <;> rfl

theorem getDocs_eq_optDocs (ii : InvertedIndex) (tok : String)
    (h : (getNodeAt ii.Root tok.data).isSome = true) :
    ii.GetDocs tok = some (optDocs ii.Root tok.data) := by
  unfold InvertedIndex.GetDocs InvertedIndex.GetNode optDocs
  cases hn : getNodeAt ii.Root tok.data
  · rw [hn] at h; exact absurd h (by simp)
  · rfl

theorem optDocs_emptyIndex (p : List Char) : optDocs NewInvertedIndex.Root p = [] :=
  optDocs_emptyItem p

/-! ### Token frequency counting inside `Index.AddDoc` -/

theorem lookup_bumpCounts (toks : List String) :
    ∀ (m : List (String × Nat)) (t : String),
      lookupKey (bumpCounts m toks) t =
        if t ∈ toks then some ((lookupKey m t).getD 0 + toks.count t)
        else lookupKey m t := by
  induction toks with
  | nil => intro m t; simp [bumpCounts]
  | cons tok₀ rest ih =>
    intro m t
    have hstep : bumpCounts m (tok₀ :: rest) =
        bumpCounts (insertKey m tok₀ ((lookupKey m tok₀).getD 0 + 1)) rest := rfl
    rw [hstep, ih]
    by_cases heq : t = tok₀
    · subst heq
      rw [lookup_insert_self]
      by_cases hmem : t ∈ rest
      · rw [if_pos hmem, if_pos (List.mem_cons_self t rest)]
        rw [List.count_cons]
        simp
        omega
      · rw [if_neg hmem, if_pos (List.mem_cons_self t rest)]
        rw [List.count_cons]
        have : rest.count t = 0 := List.count_eq_zero.mpr hmem
        simp [this]
    · rw [lookup_insert_ne m tok₀ t _ (fun h => heq h.symm)]
      have hmemiff : (t ∈ tok₀ :: rest) ↔ t ∈ rest := by
        rw [List.mem_cons]
        exact ⟨fun h => h.resolve_left heq, Or.inr⟩
      by_cases hmem : t ∈ rest
      · rw [if_pos hmem, if_pos (hmemiff.mpr hmem)]
        rw [List.count_cons]
        have : ¬ (tok₀ == t) = true := by simpa using fun h => heq h.symm
        simp [this]
      · rw [if_neg hmem, if_neg (fun h => hmem (hmemiff.mp h))]

theorem mem_keys_bumpCounts_nil (toks : List String) (t : String) :
    t ∈ keysOf (bumpCounts [] toks) ↔ t ∈ toks := by
  rw [← lookup_isSome_iff_mem, lookup_bumpCounts]
  by_cases h : t ∈ toks <;> simp [h, lookupKey]

theorem nodup_keys_bumpCounts (toks : List String) :
    ∀ m : List (String × Nat), NodupKeys m → NodupKeys (bumpCounts m toks) := by
  induction toks with
  | nil => intro m h; exact h
  | cons tok₀ rest ih =>
    intro m h
    exact ih (insertKey m tok₀ ((lookupKey m tok₀).getD 0 + 1)) (nodup_insert m tok₀ _ h)

/-! ### The per-field loop of `Index.AddDoc` -/

theorem getFieldLength_addFieldLength (ds : DocumentStore) (r' g : String) (n : Nat)
    (r f : String) :
    (ds.AddFieldLength r' g n).GetFieldLength r f =
      if r = r' ∧ f = g then n else ds.GetFieldLength r f := by
  unfold DocumentStore.AddFieldLength DocumentStore.GetFieldLength
  by_cases hr : r' = r
  · subst hr
    rw [lookup_insert_self]
    show (lookupKey (insertKey ((lookupKey ds.DocInfo r').getD []) g n) f).getD 0 = _
    rw [lookup_insert ((lookupKey ds.DocInfo r').getD []) g f n]
    by_cases hf : g = f
    · subst hf
      rw [if_pos rfl, if_pos ⟨rfl, rfl⟩]
      rfl
    · rw [if_neg hf, if_neg (fun h : r' = r' ∧ f = g => hf h.2.symm)]
      cases hdoc : lookupKey ds.DocInfo r' with
      | some fi => rfl
      | none =>
        show (lookupKey ([] : List (String × Nat)) f).getD 0 = 0
        rfl
  · rw [lookup_insert_ne _ r' r _ hr]
    rw [if_neg (fun h : r = r' ∧ f = g => hr h.1.symm)]

theorem getFieldLength_dsAddDoc (ds : DocumentStore) (r₀ : String) (doc : Document)
    (r f : String) : (ds.AddDoc r₀ doc).GetFieldLength r f = ds.GetFieldLength r f := rfl

theorem addDocField_preserve_one (refName docRef : String) (doc : Document)
    (f : String) (st : AddDocState) (g : String) (hg : g ≠ f) :
    lookupKey (addDocField refName docRef doc st g).fieldIndexes f =
        lookupKey st.fieldIndexes f ∧
      lookupKey (addDocField refName docRef doc st g).tokenFreq f =
        lookupKey st.tokenFreq f ∧
      (addDocField refName docRef doc st g).store.GetFieldLength docRef f =
        st.store.GetFieldLength docRef f := by
  unfold addDocField
  by_cases h₁ : g = refName
  · rw [if_pos h₁]
    exact ⟨rfl, rfl, rfl⟩
  · rw [if_neg h₁]
    cases hdoc : lookupKey doc g with
    | none => exact ⟨rfl, rfl, rfl⟩
    | some v =>
      refine ⟨lookup_insert_ne _ g f _ hg, lookup_insert_ne _ g f _ hg, ?_⟩
      rw [getFieldLength_addFieldLength]
      rw [if_neg (fun h => hg h.2.symm)]

theorem foldl_addDocField_preserve (l : List String) (refName docRef : String)
    (doc : Document) (f : String) (hf : f ∉ l) :
    ∀ st : AddDocState,
      lookupKey (l.foldl (addDocField refName docRef doc) st).fieldIndexes f =
          lookupKey st.fieldIndexes f ∧
        lookupKey (l.foldl (addDocField refName docRef doc) st).tokenFreq f =
          lookupKey st.tokenFreq f ∧
        (l.foldl (addDocField refName docRef doc) st).store.GetFieldLength docRef f =
          st.store.GetFieldLength docRef f := by
  induction l with
  | nil => intro st; exact ⟨rfl, rfl, rfl⟩
  | cons g rest ih =>
    intro st
    have hgf : g ≠ f := fun h => hf (h ▸ List.mem_cons_self g rest)
    have hfr : f ∉ rest := fun h => hf (List.mem_cons_of_mem g h)
    obtain ⟨p1, p2, p3⟩ := addDocField_preserve_one refName docRef doc f st g hgf
    obtain ⟨q1, q2, q3⟩ := ih hfr (addDocField refName docRef doc st g)
    rw [List.foldl_cons]
    exact ⟨q1.trans p1, q2.trans p2, q3.trans p3⟩

theorem addDocField_hit (refName docRef : String) (doc : Document) (st : AddDocState)
    (f : String) (hfne : f ≠ refName) (v : FieldVal) (hv : lookupKey doc f = some v) :
    addDocField refName docRef doc st f =
      ⟨insertKey st.fieldIndexes f
        (addTokensFromCounts ((lookupKey st.fieldIndexes f).getD NewInvertedIndex) docRef
          (bumpCounts ((lookupKey st.tokenFreq f).getD []) (processField v.toGoString))),
       st.store.AddFieldLength docRef f (processField v.toGoString).dedup.length,
       insertKey st.tokenFreq f
         (bumpCounts ((lookupKey st.tokenFreq f).getD []) (processField v.toGoString))⟩ := by
  unfold addDocField
  rw [if_neg hfne, hv]

theorem foldl_addDocField_at (fields : List String) (refName docRef : String)
    (doc : Document) (f : String) (hf : f ∈ fields) (hnd : fields.Nodup)
    (hfne : f ≠ refName) (v : FieldVal) (hv : lookupKey doc f = some v)
    (st : AddDocState) (htf : lookupKey st.tokenFreq f = none) :
    lookupKey (fields.foldl (addDocField refName docRef doc) st).fieldIndexes f =
      some (addTokensFromCounts ((lookupKey st.fieldIndexes f).getD NewInvertedIndex)
        docRef (bumpCounts [] (processField v.toGoString))) ∧
    (fields.foldl (addDocField refName docRef doc) st).store.GetFieldLength docRef f =
      (processField v.toGoString).dedup.length := by
  obtain ⟨s, t2, hsplit⟩ := List.append_of_mem hf
  subst hsplit
  have hnds : f ∉ s ∧ f ∉ t2 := by
    rw [List.nodup_append] at hnd
    refine ⟨fun hmem => hnd.2.2 hmem (List.mem_cons_self f t2), ?_⟩
    have := hnd.2.1
    rw [List.nodup_cons] at this
    exact this.1
  obtain ⟨p1, p2, p3⟩ := foldl_addDocField_preserve s refName docRef doc f hnds.1 st
  rw [List.foldl_append, List.foldl_cons,
      addDocField_hit refName docRef doc _ f hfne v hv, p1, p2, htf]
  rw [show (none : Option (List (String × Nat))).getD [] = [] from rfl]
  obtain ⟨q1, q2, q3⟩ := foldl_addDocField_preserve t2 refName docRef doc f hnds.2
    ⟨insertKey (s.foldl (addDocField refName docRef doc) st).fieldIndexes f
      (addTokensFromCounts ((lookupKey st.fieldIndexes f).getD NewInvertedIndex) docRef
        (bumpCounts [] (processField v.toGoString))),
     (s.foldl (addDocField refName docRef doc) st).store.AddFieldLength docRef f
       (processField v.toGoString).dedup.length,
     insertKey (s.foldl (addDocField refName docRef doc) st).tokenFreq f
       (bumpCounts [] (processField v.toGoString))⟩
  refine ⟨?_, ?_⟩
  · rw [q1]
    exact lookup_insert_self _ f _
  · rw [q3]
    rw [getFieldLength_addFieldLength, if_pos ⟨rfl, rfl⟩]

/-! ### Further token-level observations -/

theorem optDf_AddToken_self (ii : InvertedIndex) (r tok : String) (w : GoNum)
    (hne : tok ≠ "") :
    optDf (ii.AddToken r tok w).Root tok.data =
      if (lookupKey (optDocs ii.Root tok.data) r).isNone then optDf ii.Root tok.data + 1
      else optDf ii.Root tok.data := by
  unfold InvertedIndex.AddToken
  have hemp : ¬ byteLen tok.data = 0 := by
    rw [byteLen_eq_zero_iff]
    intro h
    exact hne ((str_eq_empty_iff tok).mpr h)
  rw [if_neg hemp]
  rw [optDf_addToken tok.data ii.Root tok.data r w (prePath_refl tok.data), if_pos rfl]

theorem optDocs_AddToken_nilpath (ii : InvertedIndex) (r tok : String) (w : GoNum) :
    optDocs (ii.AddToken r tok w).Root [] = optDocs ii.Root [] := by
  unfold InvertedIndex.AddToken
  by_cases hemp : byteLen tok.data = 0
  · rw [if_pos hemp]
  · rw [if_neg hemp]
    have htd : tok.data ≠ [] := by
      intro h
      exact hemp (by rw [h]; rfl)
    rw [optDocs_addToken tok.data ii.Root [] r w (prePath_nil_left tok.data)]
    rw [if_neg (fun h => htd h.symm)]

theorem optDf_AddToken_nilpath (ii : InvertedIndex) (r tok : String) (w : GoNum) :
    optDf (ii.AddToken r tok w).Root [] = optDf ii.Root [] := by
  unfold InvertedIndex.AddToken
  by_cases hemp : byteLen tok.data = 0
  · rw [if_pos hemp]
  · rw [if_neg hemp]
    have htd : tok.data ≠ [] := by
      intro h
      exact hemp (by rw [h]; rfl)
    rw [optDf_addToken tok.data ii.Root [] r w (prePath_nil_left tok.data)]
    rw [if_neg (fun h => htd h.symm)]

theorem optDocs_applyCallsFrom_nilpath (calls : List TokenCall) :
    ∀ ii : InvertedIndex,
      optDocs (applyCallsFrom ii calls).Root [] = optDocs ii.Root [] := by
  induction calls with
  | nil => intro ii; rfl
  | cons c₀ rest ih =>
    intro ii
    exact (ih (ii.AddToken c₀.ref c₀.token c₀.weight)).trans
      (optDocs_AddToken_nilpath ii c₀.ref c₀.token c₀.weight)

theorem optDf_applyCallsFrom_nilpath (calls : List TokenCall) :
    ∀ ii : InvertedIndex,
      optDf (applyCallsFrom ii calls).Root [] = optDf ii.Root [] := by
  induction calls with
  | nil => intro ii; rfl
  | cons c₀ rest ih =>
    intro ii
    exact (ih (ii.AddToken c₀.ref c₀.token c₀.weight)).trans
      (optDf_AddToken_nilpath ii c₀.ref c₀.token c₀.weight)

theorem getNodeAt_newIndex_isSome (p : List Char) :
    (getNodeAt NewInvertedIndex.Root p).isSome = true ↔ p = [] := by
  cases p with
  | nil => simp [getNodeAt_nil]
  | cons c cs => simp [NewInvertedIndex, getNodeAt_emptyItem]

theorem optDocs_addTokensFromCounts_miss (counts : List (String × Nat)) :
    ∀ (ii : InvertedIndex) (r tk : String), tk ∉ keysOf counts →
      optDocs (addTokensFromCounts ii r counts).Root tk.data =
        optDocs ii.Root tk.data := by
  induction counts with
  | nil => intro ii r tk _; rfl
  | cons tc rest ih =>
    intro ii r tk hmem
    obtain ⟨t₀, c₀⟩ := tc
    rw [keysOf_cons] at hmem
    have ht₀ : tk ≠ t₀ := fun h => hmem (h ▸ List.mem_cons_self t₀ _)
    have hrest : tk ∉ keysOf rest := fun h => hmem (List.mem_cons_of_mem _ h)
    show optDocs (addTokensFromCounts (ii.AddToken r t₀ (GoNum.sqrtNat c₀)) r rest).Root tk.data = _
    rw [ih (ii.AddToken r t₀ (GoNum.sqrtNat c₀)) r tk hrest]
    exact optDocs_addToken_other ii r t₀ tk (GoNum.sqrtNat c₀) ht₀

theorem optDocs_addTokensFromCounts_hit (counts : List (String × Nat)) :
    ∀ (ii : InvertedIndex) (r tk : String) (c : Nat), NodupKeys counts →
      lookupKey counts tk = some c → tk ≠ "" →
      lookupKey (optDocs (addTokensFromCounts ii r counts).Root tk.data) r =
        some (GoNum.sqrtNat c) := by
  induction counts with
  | nil => intro ii r tk c _ hl _; exact absurd hl (by simp [lookupKey])
  | cons tc rest ih =>
    intro ii r tk c hnd hl hne
    obtain ⟨t₀, c₀⟩ := tc
    by_cases heq : t₀ = tk
    · subst heq
      have hc : c = c₀ := by
        rw [show lookupKey ((t₀, c₀) :: rest) t₀ = some c₀ by simp [lookupKey]] at hl
        exact (Option.some_inj.mp hl).symm
      subst hc
      have hrest : t₀ ∉ keysOf rest := by
        unfold NodupKeys at hnd
        rw [keysOf_cons] at hnd
        exact (List.nodup_cons.mp hnd).1
      show lookupKey (optDocs (addTokensFromCounts (ii.AddToken r t₀ (GoNum.sqrtNat c)) r
        rest).Root t₀.data) r = _
      rw [optDocs_addTokensFromCounts_miss rest (ii.AddToken r t₀ (GoNum.sqrtNat c)) r t₀ hrest]
      rw [optDocs_addToken_self ii r t₀ (GoNum.sqrtNat c) hne]
      exact lookup_insert_self _ r _
    · have hl' : lookupKey rest tk = some c := by
        rw [show lookupKey ((t₀, c₀) :: rest) tk =
              if t₀ = tk then some c₀ else lookupKey rest tk from rfl, if_neg heq] at hl
        exact hl
      have hnd' : NodupKeys rest := by
        unfold NodupKeys at hnd ⊢
        rw [keysOf_cons] at hnd
        exact (List.nodup_cons.mp hnd).2
      exact ih (ii.AddToken r t₀ (GoNum.sqrtNat c₀)) r tk c hnd' hl' hne

/-! # Claim theorems -/

/-- C1: Round trip of the trie wire format: for every trie (`IndexItem`)
reachable by a sequence of `AddToken` calls, serializing with `MarshalJSON`
(docs map omitted if empty and df omitted if zero, both directly alongside
the single-character child keys, no wrapping `"children"` key — exactly how
`marshalItem` is built) and parsing the result with `UnmarshalJSON` (every
key other than `"docs"`/`"df"` treated as a child edge label) yields the
identical trie — equal `docs`, `df` and children at every reachable node. -/
theorem c1_trie_wire_roundtrip (calls : List TokenCall) :
    unmarshalItem (marshalItem (applyCalls calls).Root) = some (applyCalls calls).Root :=
  unmarshal_marshal_of_wf _ (wf_applyCalls calls)

/-- C3 counterexample: the claim is false on the code at the stated input.
`NewIndex` allocates an inverted index for every listed field, including the
reference field `"id"`, and `ToMap` serializes every entry of
`FieldIndexes`, so the `"index"` map does contain an `"id"` entry — the
claimed conjunct `no entry for "id"` fails while the other three conjuncts
hold. -/
theorem c3_counterexample :
    ¬ (lookupKey scenario3Index.ToMap "fields" = some (.strList ["id", "title", "body"]) ∧
       hasRootKey (lookupKey (indexEntryOf scenario3Index.ToMap) "title") = true ∧
       hasRootKey (lookupKey (indexEntryOf scenario3Index.ToMap) "body") = true ∧
       lookupKey (indexEntryOf scenario3Index.ToMap) "id" = none) := by
  intro h
  have hid : (lookupKey (indexEntryOf scenario3Index.ToMap) "id").isSome = true := rfl
  rw [h.2.2.2] at hid
  simp at hid

/-- C3 amended: adding `{id:1, title:"Quick Brown Foxes", body:"Running
jumped runner's"}` to an Index constructed with fields
`["id","title","body"]` yields a `ToMap()` whose `fields` entry is exactly
`["id","title","body"]` in construction order, and whose `index` entry has
a value with a `"root"` key for `title`, for `body`, and also for `id` —
the reference field's entry being a permanently empty trie node, since the
reference field is never indexed. -/
theorem c3_toMap_fields_and_index :
    lookupKey scenario3Index.ToMap "fields" = some (.strList ["id", "title", "body"]) ∧
    hasRootKey (lookupKey (indexEntryOf scenario3Index.ToMap) "title") = true ∧
    hasRootKey (lookupKey (indexEntryOf scenario3Index.ToMap) "body") = true ∧
    lookupKey (indexEntryOf scenario3Index.ToMap) "id" =
      some (.obj [("root", .item emptyItem)]) :=
  ⟨rfl, rfl, rfl, rfl⟩

/-- C5: The tokenizer splits exactly on Unicode whitespace and the hyphen,
lowercases each candidate, drops empty tokens, and preserves other
punctuation: (1) the concrete scenario; (2) every emitted token is
nonempty and contains no separator character (hyphen never retained) and
is fixed by lowercasing; (3) a separator-free word is emitted whole —
lowercased, punctuation untouched — subject only to the length filter. -/
theorem c5_tokenizer :
    tokenize "Hello, world! running-runner\x27s studies" =
      ["hello,", "world!", "running", "runner\x27s", "studies"] ∧
    (∀ text t, t ∈ tokenize text →
      t ≠ "" ∧ ∀ c ∈ t.data, isSep c = false ∧ goCharLower c = c) ∧
    (∀ w : List Char, w ≠ [] → (∀ c ∈ w, isSep c = false) →
      tokenize ⟨w⟩ = if byteLen (lowerChars w) ≤ 80 then [⟨lowerChars w⟩] else []) := by
  refine ⟨by decide, ?_, tokenize_single_word⟩
  intro text t ht
  obtain ⟨h1, _, h3⟩ := mem_tokenize_props text t ht
  exact ⟨h1, h3⟩

/-- C5 witness: the tokens of the scenario satisfy the separator-free,
lowercased conditions, and a concrete separator-free word is emitted whole. -/
theorem c5_tokenizer_witness :
    (("hello," : String) ≠ "" ∧
      ∀ c ∈ ("hello," : String).data, isSep c = false ∧ goCharLower c = c) ∧
    tokenize ⟨"Ab".data⟩ =
      (if byteLen (lowerChars "Ab".data) ≤ 80 then [⟨lowerChars "Ab".data⟩] else []) :=
  ⟨c5_tokenizer.2.1 "Hello, world! running-runner\x27s studies" "hello," (by decide),
   c5_tokenizer.2.2 "Ab".data (by decide) (by decide)⟩

/-- C6: Token length boundary: every token the tokenizer emits has byte
length at most 80 (so an overlong token never reaches the stopword filter,
stemmer, trie or field-length count); a document whose body is a single
80-character token is indexed with field length 1, while a single
81-character token yields `HasToken = false` and `GetFieldLength = 0`. -/
theorem c6_token_length_boundary :
    (∀ text t, t ∈ tokenize text → byteLen t.data ≤ 80) ∧
    ((fieldIndexOf scenario4bIndex "body").HasToken longToken80 = true ∧
      scenario4bIndex.documentStore.GetFieldLength "1" "body" = 1) ∧
    ((fieldIndexOf scenario4Index "body").HasToken longToken81 = false ∧
      scenario4Index.documentStore.GetFieldLength "1" "body" = 0) := by
  refine ⟨?_, ⟨rfl, rfl⟩, ⟨rfl, rfl⟩⟩
  intro text t ht
  exact (mem_tokenize_props text t ht).2.1

/-- C6 witness: the length bound instantiated at one emitted token. -/
theorem c6_token_length_boundary_witness : byteLen ("hello" : String).data ≤ 80 :=
  c6_token_length_boundary.1 "hello" "hello" (by decide)

/-- C7: The stemmer is deterministic and single-pass: words of byte length
at most 2 pass through unchanged; each suffix group applies at most one
rule (either the word is unchanged or exactly one rule's suffix was
dropped); and the concrete scenario stems hold. -/
theorem c7_stemmer :
    (∀ w : String, byteLen w.data ≤ 2 → stem w = w) ∧
    (∀ (w : List Char) (rules : List (List Char × Nat)),
      applyFirstRule w rules = w ∨
        ∃ r ∈ rules, applyFirstRule w rules = dropSuffix w r.1) ∧
    stem "running" = "runn" ∧ stem "studies" = "stud" ∧
      stem "happiness" = "happines" := by
  refine ⟨?_, ?_, by decide, by decide, by decide⟩
  · intro w h
    unfold stem
    rw [if_pos h]
  · intro w rules
    induction rules with
    | nil => exact Or.inl rfl
    | cons r₀ rest ih =>
      obtain ⟨sfx, minLen⟩ := r₀
      by_cases hc : (goHasSuffix w sfx && decide (byteLen w > sfx.length + minLen)) = true
      · have harw : applyFirstRule w ((sfx, minLen) :: rest) = dropSuffix w sfx := by
          show (if goHasSuffix w sfx && decide (byteLen w > sfx.length + minLen)
              then dropSuffix w sfx else applyFirstRule w rest) = _
          rw [if_pos hc]
        exact Or.inr ⟨(sfx, minLen), List.mem_cons_self _ _, harw⟩
      · have harw : applyFirstRule w ((sfx, minLen) :: rest) = applyFirstRule w rest := by
          show (if goHasSuffix w sfx && decide (byteLen w > sfx.length + minLen)
              then dropSuffix w sfx else applyFirstRule w rest) = _
          rw [if_neg hc]
        rcases ih with h | ⟨r, hr, heq⟩
        · exact Or.inl (harw.trans h)
        · exact Or.inr ⟨r, List.mem_cons_of_mem _ hr, harw.trans heq⟩

/-- C7 witness: the pass-through clause instantiated at a concrete short
word. -/
theorem c7_stemmer_witness : stem "ab" = "ab" := c7_stemmer.1 "ab" (by decide)

/-- C8: Stopword filtering happens before stemming, against the unstemmed
token: the empty string is a stopword; any emitted token that is not a
stopword and has a nonempty stem contributes its stem to the processed
tokens, even if that stem is itself a stopword; concretely, `mostly` is
not a stopword, stems to the stopword `most`, and `most` ends up in the
body trie. -/
theorem c8_stopword_before_stem :
    stopWords "" = true ∧
    (∀ s t : String, t ∈ tokenize s → stopWords t = false → stem t ≠ "" →
      stem t ∈ processField s) ∧
    (stopWords "mostly" = false ∧ stopWords (stem "mostly") = true ∧
      (fieldIndexOf stopStemIndex "body").HasToken (stem "mostly") = true) := by
  refine ⟨by decide, ?_, by decide, by decide, rfl⟩
  intro s t ht hsw hne
  unfold processField
  rw [List.mem_filterMap]
  refine ⟨t, ht, ?_⟩
  rw [hsw]
  simp [hne]

/-- C8 witness: the filter-then-stem clause instantiated at `mostly`. -/
theorem c8_stopword_before_stem_witness : stem "mostly" ∈ processField "mostly" :=
  c8_stopword_before_stem.2.1 "mostly" "mostly" (by decide) (by decide) (by decide)

/-- C2: Document-frequency invariant: (1) at every trie node of an index
built by any sequence of `AddToken` calls, `DF` equals the number of
distinct keys of that node's `Docs` map; (2) `DF` never decreases under an
`AddToken` call, and it is incremented only for a reference not already
present (clause 1 forces this); (3) a second `AddToken` with identical
reference and token leaves `DF` unchanged while the stored weight becomes
the new `w` (last write wins); (4) `GetDocFrequency(token)` equals the
number of distinct references ever posted for that token, regardless of
repeats. -/
theorem c2_df_invariant :
    (∀ (calls : List TokenCall) (p : List Char),
      optDf (applyCalls calls).Root p =
        (((keysOf (optDocs (applyCalls calls).Root p)).dedup.length : Nat) : Int)) ∧
    (∀ (ii : InvertedIndex) (r tok : String) (w : GoNum) (p : List Char),
      optDf ii.Root p ≤ optDf (ii.AddToken r tok w).Root p) ∧
    (∀ (ii : InvertedIndex) (r tok : String) (w₀ w : GoNum), tok ≠ "" →
      ((ii.AddToken r tok w₀).AddToken r tok w).GetDocFrequency tok =
          (ii.AddToken r tok w₀).GetDocFrequency tok ∧
        lookupKey (optDocs ((ii.AddToken r tok w₀).AddToken r tok w).Root tok.data) r =
          some w) ∧
    (∀ (calls : List TokenCall) (tok : String), tok ≠ "" →
      (applyCalls calls).GetDocFrequency tok =
        (((refsFor calls tok).dedup.length : Nat) : Int)) := by
  refine ⟨?_, ?_, ?_, ?_⟩
  · intro calls p
    obtain ⟨hnd, hdf⟩ := docsInv_applyCalls calls p
    rw [hdf]
    have : (keysOf (optDocs (applyCalls calls).Root p)).dedup =
        keysOf (optDocs (applyCalls calls).Root p) := List.dedup_eq_self.mpr hnd
    rw [this]
    unfold keysOf
    rw [List.length_map]
  · intro ii r tok w p
    exact optDf_mono_AddToken ii r tok w p
  · intro ii r tok w₀ w hne
    have hins : optDocs (ii.AddToken r tok w₀).Root tok.data =
        insertKey (optDocs ii.Root tok.data) r w₀ :=
      optDocs_addToken_self ii r tok w₀ hne
    constructor
    · rw [getDocFrequency_eq_optDf, getDocFrequency_eq_optDf,
          optDf_AddToken_self (ii.AddToken r tok w₀) r tok w hne, hins,
          lookup_insert_self]
      rw [if_neg (by simp)]
    · rw [optDocs_addToken_self (ii.AddToken r tok w₀) r tok w hne, lookup_insert_self]
  · intro calls tok hne
    rw [getDocFrequency_eq_optDf]
    obtain ⟨hnd, hdf⟩ := docsInv_applyCalls calls tok.data
    rw [hdf]
    have hdocs : optDocs (applyCalls calls).Root tok.data =
        (calls.filter fun c => c.token = tok).foldl
          (fun d c => insertKey d c.ref c.weight) [] := by
      rw [show applyCalls calls = applyCallsFrom NewInvertedIndex calls from rfl,
          optDocs_applyCallsFrom calls NewInvertedIndex tok hne, optDocs_emptyIndex]
    rw [hdocs]
    rw [show ((calls.filter fun c => c.token = tok).foldl
          (fun d c => insertKey d c.ref c.weight) []) =
        ((calls.filter fun c => c.token = tok).foldl
          (fun d c => insertKey d (TokenCall.ref c) (TokenCall.weight c)) []) from rfl]
    rw [length_foldInsert TokenCall.ref TokenCall.weight (calls.filter fun c => c.token = tok)]
    rfl

/-- C2 witness: the idempotence and distinct-count clauses instantiated at
concrete calls: adding token `ab` for reference `1` twice keeps `DF` at its
value after the first call while the weight becomes the new one, and with
references `1`, `2`, `1` posted for `ab`, the document frequency is the
number of distinct references. -/
theorem c2_df_invariant_witness :
    (((NewInvertedIndex.AddToken "1" "ab" (.sqrtNat 1)).AddToken "1" "ab"
          (.sqrtNat 4)).GetDocFrequency "ab" =
        (NewInvertedIndex.AddToken "1" "ab" (.sqrtNat 1)).GetDocFrequency "ab" ∧
      lookupKey (optDocs ((NewInvertedIndex.AddToken "1" "ab" (.sqrtNat 1)).AddToken "1" "ab"
          (.sqrtNat 4)).Root ("ab" : String).data) "1" = some (.sqrtNat 4)) ∧
    (applyCalls [⟨"1", "ab", .sqrtNat 1⟩, ⟨"2", "ab", .sqrtNat 1⟩,
        ⟨"1", "ab", .sqrtNat 2⟩]).GetDocFrequency "ab" =
      (((refsFor [⟨"1", "ab", .sqrtNat 1⟩, ⟨"2", "ab", .sqrtNat 1⟩,
        ⟨"1", "ab", .sqrtNat 2⟩] "ab").dedup.length : Nat) : Int) :=
  ⟨c2_df_invariant.2.2.1 NewInvertedIndex "1" "ab" (.sqrtNat 1) (.sqrtNat 4) (by decide),
   c2_df_invariant.2.2.2 [⟨"1", "ab", .sqrtNat 1⟩, ⟨"2", "ab", .sqrtNat 1⟩,
     ⟨"1", "ab", .sqrtNat 2⟩] "ab" (by decide)⟩

/-- C9: `DocumentStore.AddDoc` stores the document verbatim when the save
flag is set (an empty placeholder otherwise), re-adding a reference
overwrites the stored entry, and `Length` counts exactly the distinct
references ever stored over any sequence of `AddDoc` calls. -/
theorem c9_document_store (ds : DocumentStore) (r : String) (doc : Document) :
    ((ds.AddDoc r doc).GetDoc r = some (if ds.Save then doc else []) ∧
      (ds.AddDoc r doc).DSLength =
        (if ds.HasDoc r then ds.DSLength else ds.DSLength + 1)) ∧
    (∀ (save : Bool) (calls : List (String × Document)),
      (applyDocCallsFrom (NewDocumentStore save) calls).DSLength =
        (calls.map Prod.fst).dedup.length) := by
  refine ⟨⟨getDoc_dsAddDoc_self ds r doc, length_dsAddDoc ds r doc⟩, ?_⟩
  intro save calls
  obtain ⟨h1, h2, h3⟩ := dsInv_applyDocCallsFrom calls (NewDocumentStore save)
    (by show List.Nodup (keysOf ([] : List (String × Document))); exact List.nodup_nil)
    rfl
  rw [h2]
  refine length_eq_of_nodup_of_mem_iff h1 (List.nodup_dedup _) ?_
  intro a
  rw [h3 a, List.mem_dedup]
  have : a ∉ keysOf (NewDocumentStore save).Docs := by
    show a ∉ keysOf ([] : List (String × Document))
    simp [keysOf_nil]
  simp [this]

/-- C10: Implicit prefix behavior of token lookup: for an inverted index
built by any sequence of `AddToken` calls, `HasToken p` is true exactly
when `p` is the empty string or a (possibly full) prefix of some token
passed to `AddToken`; and for a strict prefix `p` never itself added as a
token, `GetDocFrequency p` is `0` and `GetDocs p` is an empty (non-nil)
map. -/
theorem c10_prefix_lookup :
    (∀ (calls : List TokenCall) (p : String),
      (applyCalls calls).HasToken p = true ↔
        (p = "" ∨ ∃ c ∈ calls, prePath p.data c.token.data = true)) ∧
    (∀ (calls : List TokenCall) (p : String),
      (∃ c ∈ calls, prePath p.data c.token.data = true ∧ p ≠ c.token) →
      (∀ c ∈ calls, c.token ≠ p) →
      (applyCalls calls).GetDocFrequency p = 0 ∧
        (applyCalls calls).GetDocs p = some []) := by
  constructor
  · intro calls p
    show (getNodeAt (applyCallsFrom NewInvertedIndex calls).Root p.data).isSome = true ↔ _
    rw [hasToken_applyCallsFrom calls NewInvertedIndex p.data]
    rw [getNodeAt_newIndex_isSome]
    constructor
    · rintro (h | h)
      · exact Or.inl ((str_eq_empty_iff p).mpr h)
      · exact Or.inr h
    · rintro (h | h)
      · exact Or.inl ((str_eq_empty_iff p).mp h)
      · exact Or.inr h
  · intro calls p hstrict hnotok
    obtain ⟨c, hc, hp, _⟩ := hstrict
    have hsome : (getNodeAt (applyCalls calls).Root p.data).isSome = true :=
      (hasToken_applyCallsFrom calls NewInvertedIndex p.data).mpr (Or.inr ⟨c, hc, hp⟩)
    have hdocs : optDocs (applyCalls calls).Root p.data = [] := by
      by_cases hp0 : p = ""
      · subst hp0
        rw [show ("" : String).data = [] from rfl]
        rw [show applyCalls calls = applyCallsFrom NewInvertedIndex calls from rfl,
            optDocs_applyCallsFrom_nilpath calls NewInvertedIndex]
        rfl
      · rw [show applyCalls calls = applyCallsFrom NewInvertedIndex calls from rfl,
            optDocs_applyCallsFrom calls NewInvertedIndex p hp0]
        have hfilter : calls.filter (fun c => decide (c.token = p)) = [] := by
          rw [List.filter_eq_nil_iff]
          intro a ha
          simp [hnotok a ha]
        rw [hfilter, optDocs_emptyIndex]
        rfl
    constructor
    · rw [getDocFrequency_eq_optDf]
      obtain ⟨_, hdf⟩ := docsInv_applyCalls calls p.data
      rw [hdf, hdocs]
      rfl
    · rw [getDocs_eq_optDocs _ _ hsome, hdocs]

/-- C10 witness: the strict-prefix clause instantiated: after posting only
the token `ab`, the strict prefix `a` has document frequency `0` and an
empty docs map. -/
theorem c10_prefix_lookup_witness :
    (applyCalls [⟨"1", "ab", .sqrtNat 1⟩]).GetDocFrequency "a" = 0 ∧
      (applyCalls [⟨"1", "ab", .sqrtNat 1⟩]).GetDocs "a" = some [] :=
  c10_prefix_lookup.2 [⟨"1", "ab", .sqrtNat 1⟩] "a" (by decide) (by decide)

/-- C4: Postcondition of `Index.AddDoc` on term weights and field lengths:
for a document with reference string `r` and every non-reference field `f`
present in the document (in an index whose field list has no duplicates
and, as `NewIndex` guarantees, an inverted index per field), the field's
inverted index is updated by exactly the fold of `AddToken` calls over the
token-count table of that field — whose keys are exactly the distinct
stemmed surviving tokens, once each, with value the occurrence count `c`
among that field's processed tokens, posted with weight `sqrt(c)` — so the
stored weight of each distinct token `tk` for `r` is `sqrt(count tk)`, and
`GetFieldLength r f` equals the number of distinct stemmed surviving
tokens of field `f`. -/
theorem c4_addDoc_postcondition (idx : Index) (doc : Document) (f : String) (v : FieldVal)
    (hnd : idx.Fields.Nodup) (hf : f ∈ idx.Fields) (hfne : f ≠ idx.Ref)
    (hv : lookupKey doc f = some v) :
    lookupKey (idx.AddDoc doc).FieldIndexes f =
      some (addTokensFromCounts ((lookupKey idx.FieldIndexes f).getD NewInvertedIndex)
        (refStringOf idx.Ref doc) (bumpCounts [] (processField v.toGoString))) ∧
    NodupKeys (bumpCounts [] (processField v.toGoString)) ∧
    (∀ tk, lookupKey (bumpCounts [] (processField v.toGoString)) tk =
      if tk ∈ processField v.toGoString
      then some ((processField v.toGoString).count tk) else none) ∧
    (∀ tk c, lookupKey (bumpCounts [] (processField v.toGoString)) tk = some c → tk ≠ "" →
      lookupKey (optDocs (addTokensFromCounts
          ((lookupKey idx.FieldIndexes f).getD NewInvertedIndex)
          (refStringOf idx.Ref doc) (bumpCounts [] (processField v.toGoString))).Root
        tk.data) (refStringOf idx.Ref doc) = some (.sqrtNat c)) ∧
    (idx.AddDoc doc).documentStore.GetFieldLength (refStringOf idx.Ref doc) f =
      (processField v.toGoString).dedup.length := by
  have hfold := foldl_addDocField_at idx.Fields idx.Ref (refStringOf idx.Ref doc) doc f
    hf hnd hfne v hv
    ⟨idx.FieldIndexes,
     idx.documentStore.AddDoc (refStringOf idx.Ref doc)
       (doc.foldl (fun m kv =>
         insertKey m kv.1 (if kv.1 = idx.Ref then .str (refStringOf idx.Ref doc) else kv.2)) []),
     []⟩ rfl
  refine ⟨hfold.1, nodup_keys_bumpCounts _ [] List.nodup_nil, ?_, ?_, hfold.2⟩
  · intro tk
    rw [lookup_bumpCounts]
    by_cases h : tk ∈ processField v.toGoString
    · rw [if_pos h, if_pos h]
      show some ((none : Option Nat).getD 0 + _) = _
      simp
    · rw [if_neg h, if_neg h]
      rfl
  · intro tk c hl hne
    exact optDocs_addTokensFromCounts_hit (bumpCounts [] (processField v.toGoString))
      ((lookupKey idx.FieldIndexes f).getD NewInvertedIndex) (refStringOf idx.Ref doc)
      tk c (nodup_keys_bumpCounts _ [] List.nodup_nil) hl hne

/-- C4 witness: instantiated at an index with fields `["id","body"]` and
the document `{id:7, body:"good good dog"}`: the stored weight of the
stemmed token `good` is `sqrt 2`, and the recorded body field length is
the number of distinct stemmed tokens. -/
theorem c4_addDoc_postcondition_witness :
    lookupKey (optDocs (addTokensFromCounts
        ((lookupKey (NewIndex ["id", "body"]).FieldIndexes "body").getD NewInvertedIndex)
        (refStringOf (NewIndex ["id", "body"]).Ref
          [("id", FieldVal.int 7), ("body", FieldVal.str "good good dog")])
        (bumpCounts [] (processField (FieldVal.str "good good dog").toGoString))).Root
      ("good" : String).data)
      (refStringOf (NewIndex ["id", "body"]).Ref
        [("id", FieldVal.int 7), ("body", FieldVal.str "good good dog")]) =
      some (.sqrtNat 2) ∧
    ((NewIndex ["id", "body"]).AddDoc
        [("id", FieldVal.int 7), ("body", FieldVal.str "good good dog")]).documentStore.GetFieldLength
      (refStringOf (NewIndex ["id", "body"]).Ref
        [("id", FieldVal.int 7), ("body", FieldVal.str "good good dog")]) "body" =
      (processField (FieldVal.str "good good dog").toGoString).dedup.length :=
  ⟨(c4_addDoc_postcondition (NewIndex ["id", "body"])
      [("id", FieldVal.int 7), ("body", FieldVal.str "good good dog")] "body"
      (FieldVal.str "good good dog") (by decide) (by decide) (by decide) rfl).2.2.2.1
    "good" 2 (by decide) (by decide),
   (c4_addDoc_postcondition (NewIndex ["id", "body"])
      [("id", FieldVal.int 7), ("body", FieldVal.str "good good dog")] "body"
      (FieldVal.str "good good dog") (by decide) (by decide) (by decide) rfl).2.2.2.2⟩

end GeoPub
